import Mathlib

/-!
Verification of the resilient-ingestion scripts of this repository.

Python strings are embedded as `List Char`; JSON values as the inductive
`Json`; stateful loops as explicit state-passing functions; network and
filesystem interaction as oracle functions passed in as parameters.
Each definition is translated from the corresponding source function.
-/

namespace Py

/-- Python whitespace test used by `str.strip` / `str.split` (ASCII range). -/
def pyIsSpace (c : Char) : Bool :=
  c = ' ' || c = '\t' || c = '\n' || c = '\r' || c = '\x0b' || c = '\x0c'

/-- Left part of Python `str.strip()`: drop leading whitespace. -/
def pyStripL (l : List Char) : List Char := l.dropWhile pyIsSpace

/-- Right part of Python `str.strip()`: drop trailing whitespace. -/
def pyStripR : List Char → List Char
  | [] => []
  | c :: rest =>
    match pyStripR rest with
    | [] => if pyIsSpace c then [] else [c]
    | r => c :: r

/-- Python `str.strip()`. -/
def pyStrip (l : List Char) : List Char := pyStripR (pyStripL l)

/-- Python `str.split()` with no argument: split on whitespace runs, no empties. -/
def pySplitWS : List Char → List (List Char)
  | [] => []
  | c :: rest =>
    if pyIsSpace c then pySplitWS rest
    else
      match rest with
      | [] => [[c]]
      | d :: _ =>
        if pyIsSpace d then [c] :: pySplitWS rest
        else
          match pySplitWS rest with
          | [] => [[c]]
          | w :: ws => (c :: w) :: ws

/-- `" ".join(words)`. -/
def joinSpace : List (List Char) → List Char
  | [] => []
  | [w] => w
  | w :: ws => w ++ ' ' :: joinSpace ws

/-- Python `" ".join(s.split())`: collapse whitespace runs to single spaces. -/
def collapseWS (l : List Char) : List Char := joinSpace (pySplitWS l)

/-- Python `str.split(sep)` on a single-character separator (keeps empties). -/
def pySplitOn (sep : Char) : List Char → List (List Char)
  | [] => [[]]
  | c :: rest =>
    if c = sep then [] :: pySplitOn sep rest
    else
      match pySplitOn sep rest with
      | [] => [[c]]
      | p :: ps => (c :: p) :: ps

/-- Python `str.split(sep, 1)`: split at the first occurrence of `sep`;
`none` when `sep` does not occur (mirrors the `in` test guarding it). -/
def splitFirst (sep : Char) : List Char → Option (List Char × List Char)
  | [] => none
  | c :: rest =>
    if c = sep then some ([], rest)
    else
      match splitFirst sep rest with
      | none => none
      | some (k, v) => some (c :: k, v)

/-- Python `str.lower()` (ASCII). -/
def pyLower (l : List Char) : List Char := l.map Char.toLower

/-- Python `str.startswith(pat)`; first argument is the string, second the pattern. -/
def pyStartsWith : List Char → List Char → Bool
  | _, [] => true
  | [], _ :: _ => false
  | c :: cs, d :: ds => c = d && pyStartsWith cs ds

end Py

open Py

/-- Shallow embedding of the JSON values the scripts manipulate. -/
inductive Json where
  | null
  | bool (v : Bool)
  | num (v : Int)
  | str (s : List Char)
  | arr (elems : List Json)
  | obj (fields : List (List Char × Json))

/-- `isinstance(payload, dict)`. -/
def Json.isDict : Json → Bool
  | .obj _ => true
  | _ => false

/-- `isinstance(payload, list)`. -/
def Json.isList : Json → Bool
  | .arr _ => true
  | _ => false

/-- `d.get(key)` on a dict (first binding wins, as in a Python dict read). -/
def jsonGet (j : Json) (key : List Char) : Option Json :=
  match j with
  | .obj fields => go fields
  | _ => none
where go : List (List Char × Json) → Option Json
  | [] => none
  | (k, v) :: rest => if k = key then some v else go rest

/-- Python truthiness of a JSON-shaped value. -/
def jsonTruthy : Json → Bool
  | .null => false
  | .bool v => v
  | .num v => v != 0
  | .str s => !s.isEmpty
  | .arr l => !l.isEmpty
  | .obj l => !l.isEmpty

namespace Transactions

/-- `unwrap_payload` from `scripts/pull_espn_transactions.py`:
`if isinstance(payload, list) and payload: return payload[0]; return payload`. -/
def unwrap_payload : Json → Json
  | .arr (x :: _) => x
  | p => p

end Transactions

/-! ### C8 — behaviour of `unwrap_payload` -/

/-- C8 counterexample: the claim says a two-element list is returned unchanged,
but `unwrap_payload` replaces the two-element list `[1, 2]` by its first
element `1`. -/
theorem c8_counterexample :
    Transactions.unwrap_payload (Json.arr [Json.num 1, Json.num 2]) = Json.num 1 ∧
      Json.num 1 ≠ Json.arr [Json.num 1, Json.num 2] := by
  exact ⟨rfl, fun h => Json.noConfusion h⟩

/-- C8 (amended): `unwrap_payload` replaces every non-empty list — not only
single-element lists — by its first element, and returns empty lists and
non-lists unchanged. -/
theorem c8_unwrap_payload_first_element :
    (∀ x xs, Transactions.unwrap_payload (Json.arr (x :: xs)) = x) ∧
      Transactions.unwrap_payload (Json.arr []) = Json.arr [] ∧
      ∀ p : Json, p.isList = false → Transactions.unwrap_payload p = p := by
  refine ⟨fun x xs => rfl, rfl, fun p hp => ?_⟩
  cases p with
  | arr l => simp [Json.isList] at hp
  | null => rfl
  | bool v => rfl
  | num v => rfl
  | str s => rfl
  | obj l => rfl

/-- C8 witness: evaluating the amended theorem's non-list case at a
concrete dict payload. -/
theorem c8_witness :
    Transactions.unwrap_payload (Json.obj []) = Json.obj [] :=
  c8_unwrap_payload_first_element.2.2 (Json.obj []) rfl

/-! ### C4 — atomic record writer

`safe_write_json` in `scripts/pull_espn_athletes_index.py` (and the inline
copy at `scripts/pull_espn_core_by_id.py:104-106`) writes the serialized
record to `path + ".tmp"` and then `os.replace`s it onto `path`.  We model
the filesystem as a map from paths to contents and enumerate every point at
which the process can terminate. -/

namespace AtomicWrite

/-- A filesystem: path to file content, `none` when absent. -/
def FS : Type := List Char → Option (List Char)

/-- The temporary path `path.with_suffix(path.suffix + ".tmp")`, i.e. the
destination path with `".tmp"` appended. -/
def tmpPath (path : List Char) : List Char := path ++ ".tmp".toList

/-- Point-update of the filesystem map. -/
def updateFS (fs : FS) (p : List Char) (v : Option (List Char)) : FS :=
  fun q => if q = p then v else fs q

/-- The points at which the process can terminate during `safe_write_json`:
before the temporary file is written, part-way through writing it (having
persisted a prefix of length `k`), after writing it but before the rename,
and after the atomic `os.replace`. -/
inductive CrashPoint where
  | beforeTmpWrite
  | duringTmpWrite (k : Nat)
  | afterTmpWrite
  | afterRename

/-- Filesystem state observed when the process terminates at the given point
of `safe_write_json path content`.  `os.replace` is modelled as a single
atomic step moving the temporary file onto the destination. -/
def safe_write_json_crash (fs : FS) (path content : List Char) : CrashPoint → FS
  | .beforeTmpWrite => fs
  | .duringTmpWrite k => updateFS fs (tmpPath path) (some (content.take k))
  | .afterTmpWrite => updateFS fs (tmpPath path) (some content)
  | .afterRename =>
      updateFS (updateFS (updateFS fs (tmpPath path) (some content))
        (tmpPath path) none) path (some content)

theorem tmpPath_ne (path : List Char) : tmpPath path ≠ path := by
  intro h
  have := congrArg List.length h
  simp [tmpPath] at this

/-- C4: at every termination point before the rename the destination still
holds its prior content (or is absent); after the rename it holds exactly the
complete new content.  No crash point exposes a truncated record at the
destination. -/
theorem c4_safe_write_json_atomic (fs : FS) (path content : List Char) :
    safe_write_json_crash fs path content .beforeTmpWrite path = fs path ∧
      (∀ k, safe_write_json_crash fs path content (.duringTmpWrite k) path = fs path) ∧
      safe_write_json_crash fs path content .afterTmpWrite path = fs path ∧
      safe_write_json_crash fs path content .afterRename path = some content := by
  refine ⟨rfl, fun k => ?_, ?_, ?_⟩ <;>
    simp [safe_write_json_crash, updateFS, tmpPath_ne path, Ne.symm (tmpPath_ne path)]

end AtomicWrite

/-! ### C1 — backoff retry client `fetch_json`
(`scripts/pull_espn_athletes_index.py:12-24`)

Each loop iteration performs one HTTP GET; the outcome of attempt `i` is
given by the oracle `responses i`: either a raised transport exception or a
response with a payload and status code.  The source raises `RuntimeError`
on `status >= 500`, then calls `r.raise_for_status()` (which raises
`requests.HTTPError` for any status >= 400); both raises are caught by the
`except Exception` handler, which sleeps and retries.  Only then is
`(r.json(), r.status_code)` returned. -/

namespace AthletesIndex

inductive HttpAttempt where
  | exc
  | resp (payload : Json) (status : Nat)

/-- The retry loop of `fetch_json`, starting at attempt `i` with `fuel`
remaining iterations.  `none` models the final `raise RuntimeError` after
exhausting the retries. -/
def fetch_json_from (responses : Nat → HttpAttempt) : Nat → Nat → Option (Json × Nat)
  | _, 0 => none
  | i, fuel + 1 =>
    match responses i with
    | .exc => fetch_json_from responses (i + 1) fuel
    | .resp p s =>
      if 500 ≤ s then fetch_json_from responses (i + 1) fuel
      else if 400 ≤ s then fetch_json_from responses (i + 1) fuel
      else some (p, s)

/-- `fetch_json` with its default `retries` bound of 6. -/
def fetch_json (responses : Nat → HttpAttempt) : Option (Json × Nat) :=
  fetch_json_from responses 0 6

/-- A response stream whose first attempt is a 404 and whose second is a 200. -/
def c1Responses : Nat → HttpAttempt := fun i =>
  if i = 0 then .resp (Json.num 7) 404 else .resp (Json.num 9) 200

/-- C1 counterexample: with a 404 on the first attempt, `fetch_json` does not
return the 404 status and payload to the caller; the 4xx response is retried
and the second attempt's 200 response is returned instead. -/
theorem c1_counterexample :
    fetch_json c1Responses = some (Json.num 9, 200) ∧
      some ((Json.num 9 : Json), 200) ≠ some ((Json.num 7 : Json), 404) := by
  refine ⟨rfl, fun h => ?_⟩
  have := (Option.some.injEq _ _).mp h
  have h2 := congrArg Prod.snd this
  simp at h2

/-- C1 (amended): `fetch_json` never returns a response with status ≥ 400 —
`r.raise_for_status()` raises on every 4xx, which the `except` handler
catches and retries exactly like transport exceptions and 5xx statuses; a
response is returned (on the first attempt that yields one) only when its
status is below 400. -/
theorem c1_fetch_json_retries_4xx :
    (∀ (responses : Nat → HttpAttempt) (i fuel : Nat) (p : Json) (s : Nat),
        fetch_json_from responses i fuel = some (p, s) → s < 400) ∧
      (∀ (responses : Nat → HttpAttempt) (i fuel : Nat),
        (responses i = .exc ∨ ∃ p s, responses i = .resp p s ∧ 400 ≤ s) →
          fetch_json_from responses i (fuel + 1) = fetch_json_from responses (i + 1) fuel) ∧
      (∀ (responses : Nat → HttpAttempt) (i fuel : Nat) (p : Json) (s : Nat),
        responses i = .resp p s → s < 400 →
          fetch_json_from responses i (fuel + 1) = some (p, s)) := by
  refine ⟨?_, ?_, ?_⟩
  · intro responses i fuel
    induction fuel generalizing i with
    | zero => intro p s h; simp [fetch_json_from] at h
    | succ n ih =>
      intro p s h
      rw [fetch_json_from] at h
      cases hr : responses i with
      | exc => rw [hr] at h; exact ih (i + 1) p s h
      | resp q t =>
        rw [hr] at h
        dsimp only at h
        by_cases h5 : 500 ≤ t
        · rw [if_pos h5] at h; exact ih (i + 1) p s h
        · rw [if_neg h5] at h
          by_cases h4 : 400 ≤ t
          · rw [if_pos h4] at h; exact ih (i + 1) p s h
          · rw [if_neg h4] at h
            simp only [Option.some.injEq, Prod.mk.injEq] at h
            omega
  · intro responses i fuel h
    rw [fetch_json_from]
    rcases h with h | ⟨p, s, hr, hs⟩
    · rw [h]
    · rw [hr]
      dsimp only
      by_cases h5 : 500 ≤ s
      · rw [if_pos h5]
      · rw [if_neg h5, if_pos (by omega)]
  · intro responses i fuel p s hr hs
    rw [fetch_json_from, hr]
    dsimp only
    rw [if_neg (by omega), if_neg (by omega)]

/-- C1 witness: the amended theorem evaluated on the concrete stream —
the first response is a 404 and is retried (attempt advances from 0 to 1),
and the returned status 200 is below 400. -/
theorem c1_witness :
    (fetch_json_from c1Responses 0 6 = fetch_json_from c1Responses 1 5) ∧ 200 < 400 := by
  constructor
  · exact c1_fetch_json_retries_4xx.2.1 c1Responses 0 5
      (Or.inr ⟨Json.num 7, 404, rfl, by omega⟩)
  · exact c1_fetch_json_retries_4xx.1 c1Responses 0 6 (Json.num 9) 200 rfl

end AthletesIndex

/-! ### C6 — debug snapshot writes
(`scripts/pull_espn_transactions.py`: `write_debug`, `fetch_settings`,
`fetch_transactions_for_period`)

Each fetch-attempt descriptor yields a payload, supplied here as an element
of `attempts` (the order is the fallback precedence).  Both functions are
modelled together with the number of `write_debug` calls they perform. -/

namespace Transactions

def statusKey : List Char := "status".toList
def transactionsKey : List Char := "transactions".toList

/-- The validity predicate of `fetch_settings`:
`isinstance(payload, dict) and payload.get("status")`. -/
def settingsValid (p : Json) : Bool :=
  p.isDict && jsonTruthy ((jsonGet p statusKey).getD Json.null)

/-- `fetch_settings`: tries each attempt in order, unwrapping the payload;
returns the first valid payload, calling `write_debug` after every invalid
attempt (`{}` with one debug write per attempt when all fail).  The second
component counts the `write_debug` calls performed. -/
def fetch_settings : List Json → Json × Nat
  | [] => (Json.obj [], 0)
  | p :: rest =>
    let q := unwrap_payload p
    if settingsValid q then (q, 0)
    else
      let (r, w) := fetch_settings rest
      (r, w + 1)

/-- The transaction list a payload yields in `fetch_transactions_for_period`:
`transactions = payload.get("transactions") or []` when the payload is a
dict, followed by `isinstance(transactions, list) and transactions`. -/
def txnsOf (p : Json) : Option (List Json) :=
  if p.isDict then
    match jsonGet p transactionsKey with
    | some (Json.arr (x :: xs)) => some (x :: xs)
    | _ => none
  else none

/-- The descriptor loop of `fetch_transactions_for_period`: returns the first
non-empty transaction list, remembering (`tried`) whether any attempt was
made; after exhausting all attempts it calls `write_debug` once if at least
one attempt recorded a `last_response`.  The `Nat` counts `write_debug`
calls. -/
def fetch_transactions_go : List Json → Bool → List Json × Nat
  | [], tried => ([], if tried then 1 else 0)
  | p :: rest, _ =>
    let q := unwrap_payload p
    match txnsOf q with
    | some txs => (txs, 0)
    | none => fetch_transactions_go rest true

/-- `fetch_transactions_for_period` over its flattened descriptor list. -/
def fetch_transactions_for_period (attempts : List Json) : List Json × Nat :=
  fetch_transactions_go attempts false

/-- A dict payload without a truthy `status` field (invalid for settings). -/
def c6Invalid : Json := Json.obj []

/-- A dict payload with a truthy `status` field (valid for settings). -/
def c6Valid : Json := Json.obj [(statusKey, Json.num 1)]

end Transactions

/-- C6 counterexample: with two settings attempts of which the second is
structurally valid, `fetch_settings` returns the valid payload yet has
already performed one `write_debug` call for the failed first attempt — the
debug sink is written even though a fetch-attempt descriptor yielded a valid
payload. -/
theorem c6_counterexample :
    (∃ p ∈ [Transactions.c6Invalid, Transactions.c6Valid],
        Transactions.settingsValid (Transactions.unwrap_payload p) = true) ∧
      Transactions.fetch_settings [Transactions.c6Invalid, Transactions.c6Valid]
        = (Transactions.c6Valid, 1) ∧ (1 : Nat) ≠ 0 := by
  refine ⟨⟨Transactions.c6Valid, by simp, rfl⟩, rfl, by omega⟩

/-- C6 (amended): `fetch_transactions_for_period` writes the debug snapshot
only on total fallback exhaustion — whenever some attempt yields a non-empty
transaction list, no debug write happens — whereas `fetch_settings` performs
one debug write per failed attempt preceding the first valid one (so a
debug write can happen even when a later attempt succeeds). -/
theorem c6_debug_written_only_on_exhaustion :
    (∀ attempts : List Json,
        (∃ p ∈ attempts, (Transactions.txnsOf (Transactions.unwrap_payload p)).isSome) →
          (Transactions.fetch_transactions_for_period attempts).2 = 0) ∧
      (∀ attempts : List Json,
        (Transactions.fetch_settings attempts).2 =
          (attempts.takeWhile
            (fun p => !Transactions.settingsValid (Transactions.unwrap_payload p))).length) := by
  constructor
  · intro attempts h
    have main : ∀ (l : List Json) (b : Bool),
        (∃ p ∈ l, (Transactions.txnsOf (Transactions.unwrap_payload p)).isSome) →
          (Transactions.fetch_transactions_go l b).2 = 0 := by
      intro l
      induction l with
      | nil => intro b h'; simp at h'
      | cons p rest ih =>
        intro b h'
        rw [Transactions.fetch_transactions_go]
        cases ht : Transactions.txnsOf (Transactions.unwrap_payload p) with
        | some txs => simp
        | none =>
          rcases h' with ⟨q, hq, hqv⟩
          rcases List.mem_cons.mp hq with rfl | hqrest
          · rw [ht] at hqv; simp at hqv
          · exact ih true ⟨q, hqrest, hqv⟩
    exact main attempts false h
  · intro attempts
    induction attempts with
    | nil => rfl
    | cons p rest ih =>
      rw [Transactions.fetch_settings, List.takeWhile]
      cases hv : Transactions.settingsValid (Transactions.unwrap_payload p) with
      | true => simp [hv]
      | false => simp only [hv, Bool.not_false, List.length_cons, ih]; simp

/-- C6 witness: the amended theorem evaluated at a one-attempt run whose
only payload yields transactions — no debug write happens — and at the
concrete settings attempt list, where the write count equals the number of
leading invalid attempts. -/
theorem c6_witness :
    (Transactions.fetch_transactions_for_period
        [Json.obj [(Transactions.transactionsKey, Json.arr [Json.num 3])]]).2 = 0 ∧
      (Transactions.fetch_settings [Transactions.c6Invalid, Transactions.c6Valid]).2 =
        ([Transactions.c6Invalid, Transactions.c6Valid].takeWhile
          (fun p => !Transactions.settingsValid (Transactions.unwrap_payload p))).length := by
  constructor
  · exact c6_debug_written_only_on_exhaustion.1 _
      ⟨Json.obj [(Transactions.transactionsKey, Json.arr [Json.num 3])], by simp, rfl⟩
  · exact c6_debug_written_only_on_exhaustion.2 _

/-! ### Crawl model — `scripts/pull_espn_core_by_id.py`, `main` loop

The per-identifier loop (lines 73-121) is embedded as a state-transition
function.  The state carries the output directory (a map from identifier to
file), the crawl-log rows appended so far, and a count of network requests
issued.  The network is an oracle from identifier to outcome; JSON parsing
of a response body (`resp.json()`) is an oracle from body to optional parsed
value; the byte size a serialized record gets on disk is abstracted by
`sz`. -/

namespace CoreById

/-- The status strings written to the crawl log. -/
inductive Status where
  | ok
  | notFound
  | skipExists
  | httpError
  | exception
deriving DecidableEq

/-- One crawl-log row (`espn_id`, `status`; the remaining columns do not
affect control flow). -/
structure LogRow where
  espn_id : Nat
  status : Status
deriving DecidableEq

/-- The payload written for a 200 response: `{meta: {…, http_status}, data, raw}`.
`data` and `raw` are JSON fields initialised to `None` (null). -/
structure CoreRecord where
  http_status : Nat
  data : Json
  raw : Json

/-- A file in the output directory: its byte size and, when it was produced
by this crawler, the record it holds. -/
structure FileVal where
  size : Nat
  stored : Option CoreRecord

structure CrawlState where
  files : Nat → Option FileVal
  log : List LogRow
  requests : Nat

/-- Outcome of `sess.get(url)` for one identifier: a raised exception or a
response with status code and body text. -/
inductive FetchOutcome where
  | exc
  | resp (status : Nat) (body : List Char)

/-- `st in ("ok", "404")`: the terminal statuses that suppress re-fetch. -/
def isTerminal : Status → Bool
  | .ok => true
  | .notFound => true
  | _ => false

/-- The `done` set built from prior log rows (lines 49-57): identifiers with
some row whose status is `ok` or `404`. -/
def doneSet (rows : List LogRow) (id : Nat) : Bool :=
  rows.any (fun r => r.espn_id == id && isTerminal r.status)

/-- Lines 50-57 guard the whole prior-log scan with `if args.resume and …`:
without resume the done set is empty. -/
def crawlDone (resume : Bool) (rows : List LogRow) (id : Nat) : Bool :=
  resume && doneSet rows id

/-- Lines 90-102: build the output payload for a 200 response with non-blank
body.  `data`/`raw` start as null; `resp.json()` fills `data` on success,
otherwise `raw` gets the body text. -/
def buildRecord (parse : List Char → Option Json) (status : Nat) (body : List Char) :
    CoreRecord :=
  match parse body with
  | some j => { http_status := status, data := j, raw := Json.null }
  | none => { http_status := status, data := Json.null, raw := Json.str body }

/-- Line 78: `out_path.exists() and out_path.stat().st_size > 50`. -/
def skipExistingFile (f : Option FileVal) : Bool :=
  match f with
  | some fi => decide (50 < fi.size)
  | none => false

/-- One iteration of the `for espn_id in ids` loop (lines 73-121). -/
def processId (fetch : Nat → FetchOutcome) (parse : List Char → Option Json)
    (sz : CoreRecord → Nat) (done : Nat → Bool) (st : CrawlState) (espn_id : Nat) :
    CrawlState :=
  if done espn_id then st
  else if skipExistingFile (st.files espn_id) then
    { st with log := st.log ++ [⟨espn_id, .skipExists⟩] }
  else
    match fetch espn_id with
    | .exc =>
      { st with requests := st.requests + 1, log := st.log ++ [⟨espn_id, .exception⟩] }
    | .resp status body =>
      if status = 200 ∧ pyStrip body ≠ [] then
        let r := buildRecord parse status body
        { files := fun i => if i = espn_id then some ⟨sz r, some r⟩ else st.files i,
          log := st.log ++ [⟨espn_id, .ok⟩],
          requests := st.requests + 1 }
      else if status = 404 then
        { st with requests := st.requests + 1, log := st.log ++ [⟨espn_id, .notFound⟩] }
      else
        { st with requests := st.requests + 1, log := st.log ++ [⟨espn_id, .httpError⟩] }

/-- The whole crawl run over the identifier queue: the `done` set is built
from the pre-existing log rows when `resume` is set, then the loop folds
over the identifiers. -/
def runCrawl (fetch : Nat → FetchOutcome) (parse : List Char → Option Json)
    (sz : CoreRecord → Nat) (resume : Bool) (ids : List Nat) (st0 : CrawlState) :
    CrawlState :=
  ids.foldl (processId fetch parse sz (crawlDone resume st0.log)) st0

end CoreById

/-! ### C2 — resume idempotence -/

/-- C2: if resume is enabled and every identifier in the queue has a
terminal-status row (ok or 404) in the prior crawl log, re-running the crawl
returns the initial state unchanged: zero additional network requests, the
same output files, and the same log. -/
theorem c2_resume_idempotent (fetch : Nat → CoreById.FetchOutcome)
    (parse : List Char → Option Json) (sz : CoreById.CoreRecord → Nat)
    (ids : List Nat) (st0 : CoreById.CrawlState)
    (h : ∀ id ∈ ids, CoreById.doneSet st0.log id = true) :
    CoreById.runCrawl fetch parse sz true ids st0 = st0 := by
  rw [CoreById.runCrawl]
  induction ids with
  | nil => rfl
  | cons i rest ih =>
    rw [List.foldl_cons]
    have hi : CoreById.crawlDone true st0.log i = true := by
      simp [CoreById.crawlDone, h i (List.mem_cons_self i rest)]
    rw [CoreById.processId, if_pos hi]
    exact ih (fun id hid => h id (List.mem_cons_of_mem i hid))

/-- C2 witness: a concrete one-identifier queue whose identifier already has
an `ok` row in the prior log; the run leaves the state untouched. -/
theorem c2_witness :
    CoreById.runCrawl (fun _ => .resp 200 ['x']) (fun _ => none) (fun _ => 100) true [5]
        ⟨fun _ => none, [⟨5, .ok⟩], 0⟩ = ⟨fun _ => none, [⟨5, .ok⟩], 0⟩ := by
  exact c2_resume_idempotent _ _ _ [5] ⟨fun _ => none, [⟨5, .ok⟩], 0⟩
    (by intro id hid; simp at hid; subst hid; rfl)

/-! ### C7 — log completeness -/

/-- C7 counterexample: identifier 5 has a terminal `ok` row in the prior
log; with resume on, the run skips it via the `continue` at line 74-75 and
appends no row at all — the log after the run has the same single row as
before, contradicting the claim that every processed identifier appends at
least one row. -/
theorem c7_counterexample :
    (CoreById.runCrawl (fun _ => .resp 200 ['x']) (fun _ => none) (fun _ => 100) true [5]
        ⟨fun _ => none, [⟨5, .ok⟩], 0⟩).log.length = 1 := by
  rfl

/-- C7 (amended): an identifier skipped because of a prior terminal log row
appends no row (the whole state is unchanged); every identifier processed
past that check — including the pre-existing-valid-file skip and every fetch
outcome — appends exactly one row, and rows are only ever appended. -/
theorem c7_log_rows_per_identifier (fetch : Nat → CoreById.FetchOutcome)
    (parse : List Char → Option Json) (sz : CoreById.CoreRecord → Nat)
    (done : Nat → Bool) (st : CoreById.CrawlState) (espn_id : Nat) :
    (done espn_id = true → CoreById.processId fetch parse sz done st espn_id = st) ∧
      (done espn_id = false →
        ∃ row : CoreById.LogRow, row.espn_id = espn_id ∧
          (CoreById.processId fetch parse sz done st espn_id).log = st.log ++ [row]) := by
  constructor
  · intro hd
    rw [CoreById.processId, if_pos hd]
  · intro hd
    rw [CoreById.processId, if_neg (by simp [hd])]
    by_cases hf : CoreById.skipExistingFile (st.files espn_id) = true
    · rw [if_pos hf]
      exact ⟨⟨espn_id, .skipExists⟩, rfl, rfl⟩
    · rw [if_neg hf]
      cases fetch espn_id with
      | exc => exact ⟨⟨espn_id, .exception⟩, rfl, rfl⟩
      | resp status body =>
        dsimp only
        by_cases h200 : status = 200 ∧ pyStrip body ≠ []
        · rw [if_pos h200]
          exact ⟨⟨espn_id, .ok⟩, rfl, rfl⟩
        · rw [if_neg h200]
          by_cases h404 : status = 404
          · rw [if_pos h404]
            exact ⟨⟨espn_id, .notFound⟩, rfl, rfl⟩
          · rw [if_neg h404]
            exact ⟨⟨espn_id, .httpError⟩, rfl, rfl⟩

/-- C7 witness: the amended theorem evaluated at a concrete identifier not
in the done set — exactly one row, bearing that identifier, is appended. -/
theorem c7_witness :
    ∃ row : CoreById.LogRow, row.espn_id = 9 ∧
      (CoreById.processId (fun _ => .resp 404 []) (fun _ => none) (fun _ => 100)
        (fun _ => false) ⟨fun _ => none, [], 0⟩ 9).log = ([] : List CoreById.LogRow) ++ [row] :=
  (c7_log_rows_per_identifier (fun _ => .resp 404 []) (fun _ => none) (fun _ => 100)
    (fun _ => false) ⟨fun _ => none, [], 0⟩ 9).2 rfl

/-! ### C9 — population of `data`/`raw` in the per-item record -/

namespace CoreById

/-- A JSON field counts as populated when it is not null. -/
def populated (j : Json) : Bool :=
  match j with
  | Json.null => false
  | _ => true

/-- Exactly one of the record's `data` and `raw` fields is non-null. -/
def exactlyOnePopulated (r : CoreRecord) : Bool :=
  populated r.data != populated r.raw

/-- A parse oracle under which the body `"null"` parses (to JSON null, as
`resp.json()` does) and every other body raises `ValueError`. -/
def c9Parse : List Char → Option Json :=
  fun body => if body = "null".toList then some Json.null else none

end CoreById

/-- C9 counterexample: a 200 response whose body is the JSON literal
`null` parses successfully, so `payload["data"] = resp.json()` stores
`None` and `raw` is never set — the written record has *neither* field
populated, contradicting "exactly one". -/
theorem c9_counterexample :
    (CoreById.processId (fun _ => .resp 200 "null".toList) CoreById.c9Parse (fun _ => 60)
        (fun _ => false) ⟨fun _ => none, [], 0⟩ 5).files 5 =
      some ⟨60, some ⟨200, Json.null, Json.null⟩⟩ ∧
      CoreById.exactlyOnePopulated ⟨200, Json.null, Json.null⟩ = false := by
  exact ⟨rfl, rfl⟩

/-- C9 (amended): for every record written on a 200 response with a
non-blank body, at most one of `data`/`raw` is populated: `raw` (the body
text, always non-null) exactly when the body failed to parse, `data` (the
parse result) when it parsed — and that parse result is non-null, giving
"exactly one", in every case except a body parsing to the JSON value null
(such as the literal body `"null"`), where both fields remain null. -/
theorem c9_record_population (fetch : Nat → CoreById.FetchOutcome)
    (parse : List Char → Option Json) (sz : CoreById.CoreRecord → Nat)
    (done : Nat → Bool) (st : CoreById.CrawlState) (espn_id status : Nat)
    (body : List Char)
    (hdone : done espn_id = false)
    (hskip : CoreById.skipExistingFile (st.files espn_id) = false)
    (hfetch : fetch espn_id = .resp status body)
    (hstatus : status = 200) (hbody : pyStrip body ≠ []) :
    (CoreById.processId fetch parse sz done st espn_id).files espn_id =
        some ⟨sz (CoreById.buildRecord parse status body),
              some (CoreById.buildRecord parse status body)⟩ ∧
      ¬(CoreById.populated (CoreById.buildRecord parse status body).data = true ∧
          CoreById.populated (CoreById.buildRecord parse status body).raw = true) ∧
      (parse body ≠ some Json.null →
        CoreById.exactlyOnePopulated (CoreById.buildRecord parse status body) = true) ∧
      (parse body = some Json.null →
        (CoreById.buildRecord parse status body).data = Json.null ∧
          (CoreById.buildRecord parse status body).raw = Json.null) := by
  refine ⟨?_, ?_, ?_, ?_⟩
  · rw [CoreById.processId, if_neg (by simp [hdone]), if_neg (by simp [hskip]), hfetch]
    dsimp only
    rw [if_pos ⟨hstatus, hbody⟩]
    simp
  · rw [CoreById.buildRecord]
    cases hp : parse body with
    | none => simp [CoreById.populated]
    | some j => cases j <;> simp [CoreById.populated]
  · intro hnn
    rw [CoreById.exactlyOnePopulated, CoreById.buildRecord]
    cases hp : parse body with
    | none => simp [CoreById.populated]
    | some j =>
      cases j with
      | null => exact absurd hp hnn
      | bool v => simp [CoreById.populated]
      | num v => simp [CoreById.populated]
      | str s => simp [CoreById.populated]
      | arr l => simp [CoreById.populated]
      | obj l => simp [CoreById.populated]
  · intro hp
    rw [CoreById.buildRecord, hp]
    exact ⟨rfl, rfl⟩

/-- C9 witness: the amended theorem evaluated at a body that fails to parse —
the record stores the raw text and exactly one field is populated. -/
theorem c9_witness :
    (CoreById.processId (fun _ => .resp 200 "oops".toList) (fun _ => none) (fun _ => 70)
        (fun _ => false) ⟨fun _ => none, [], 0⟩ 5).files 5 =
      some ⟨70, some (CoreById.buildRecord (fun _ => none) 200 "oops".toList)⟩ ∧
      CoreById.exactlyOnePopulated (CoreById.buildRecord (fun _ => none) 200 "oops".toList)
        = true := by
  have h := c9_record_population (fun _ => .resp 200 "oops".toList) (fun _ => none)
    (fun _ => 70) (fun _ => false) ⟨fun _ => none, [], 0⟩ 5 200 "oops".toList
    rfl rfl rfl rfl (by decide)
  exact ⟨h.1, h.2.2.1 (by simp)⟩

/-! ### C3 — season-level transaction aggregation
(`scripts/pull_espn_transactions.py:222-244`, `pull_season`)

A fetched item is either a dict (with the fields the aggregation touches:
`id`, `season`, `scoringPeriodId`, `__view`, plus an opaque remainder) or a
non-dict, which the loop skips.  `fetchPeriod` is the oracle standing for
`fetch_transactions_for_period`, returning the items and the view used for
each scoring period. -/

namespace Transactions

structure TxnItem where
  id : Option Int
  season : Option Int
  scoringPeriodId : Option Int
  view : Option (List Char)
  payload : Nat
deriving DecidableEq

inductive RawItem where
  | dict (t : TxnItem)
  | nondict (x : Nat)

/-- Lines 235-238: `item.setdefault("season", season)`,
`item.setdefault("scoringPeriodId", scoring_id)`, and — only when
`view_used` is truthy — `item.setdefault("__view", view_used)`. -/
def stampItem (season scoring_id : Int) (view_used : Option (List Char)) (t : TxnItem) :
    TxnItem :=
  { t with
    season := some (t.season.getD season),
    scoringPeriodId := some (t.scoringPeriodId.getD scoring_id),
    view := match view_used with
            | some v => if v.isEmpty then t.view else some (t.view.getD v)
            | none => t.view }

/-- Lines 232-244, one item: skip non-dicts, stamp provenance, drop items
whose `id` was already seen, record newly seen ids, append. -/
def insertItem (season scoring_id : Int) (view_used : Option (List Char))
    (acc : List TxnItem × List Int) (raw : RawItem) : List TxnItem × List Int :=
  match raw with
  | .nondict _ => acc
  | .dict t0 =>
    let t := stampItem season scoring_id view_used t0
    match t.id with
    | some i => if i ∈ acc.2 then acc else (acc.1 ++ [t], acc.2 ++ [i])
    | none => (acc.1 ++ [t], acc.2)

/-- The aggregation loop of `pull_season` over scoring periods
`1..max_scoring`: the accumulator carries the season-level transaction list
and the `seen_ids` set. -/
def pull_season_transactions (fetchPeriod : Int → List RawItem × Option (List Char))
    (season : Int) (max_scoring : Nat) : List TxnItem × List Int :=
  (List.range max_scoring).foldl
    (fun acc (k : Nat) =>
      let scoring_id : Int := Int.ofNat k + 1
      let fetched := fetchPeriod scoring_id
      fetched.1.foldl (insertItem season scoring_id fetched.2) acc)
    ([], [])

/-- No two records carry the same (present) transaction identifier. -/
def DistinctIds (l : List TxnItem) : Prop :=
  l.Pairwise (fun a b => ∀ v : Int, a.id = some v → b.id ≠ some v)

/-- The aggregation invariant: every present id of the list is in the seen
set, and ids are pairwise distinct. -/
def AggInv (acc : List TxnItem × List Int) : Prop :=
  (∀ t ∈ acc.1, ∀ v : Int, t.id = some v → v ∈ acc.2) ∧ DistinctIds acc.1

theorem stampItem_id (season scoring_id : Int) (view_used : Option (List Char))
    (t : TxnItem) : (stampItem season scoring_id view_used t).id = t.id := rfl

theorem insertItem_inv (season scoring_id : Int) (view_used : Option (List Char))
    (acc : List TxnItem × List Int) (raw : RawItem) (h : AggInv acc) :
    AggInv (insertItem season scoring_id view_used acc raw) := by
  rcases raw with t0 | x
  case nondict => exact h
  case dict =>
    rw [insertItem]
    rcases h with ⟨hmem, hdist⟩
    cases hid : (stampItem season scoring_id view_used t0).id with
    | some i =>
      dsimp only
      by_cases hin : i ∈ acc.2
      · rw [if_pos hin]; exact ⟨hmem, hdist⟩
      · rw [if_neg hin]
        constructor
        · intro t ht v hv
          rcases List.mem_append.mp ht with ht | ht
          · exact List.mem_append.mpr (Or.inl (hmem t ht v hv))
          · have : t = stampItem season scoring_id view_used t0 := by
              simpa using ht
            subst this
            rw [hid] at hv
            have h2 : i = v := by simpa using hv
            subst h2
            exact List.mem_append.mpr (Or.inr (by simp))
        · rw [DistinctIds, List.pairwise_append]
          refine ⟨hdist, List.pairwise_singleton _ _, ?_⟩
          intro a ha b hb v hav hbv
          have hb' : b = stampItem season scoring_id view_used t0 := by simpa using hb
          subst hb'
          rw [hid] at hbv
          have h2 : i = v := by simpa using hbv
          subst h2
          exact hin (hmem a ha _ hav)
    | none =>
      dsimp only
      constructor
      · intro t ht v hv
        rcases List.mem_append.mp ht with ht | ht
        · exact hmem t ht v hv
        · have : t = stampItem season scoring_id view_used t0 := by simpa using ht
          subst this
          rw [hid] at hv
          exact absurd hv (by simp)
      · rw [DistinctIds, List.pairwise_append]
        refine ⟨hdist, List.pairwise_singleton _ _, ?_⟩
        intro a ha b hb v hav hbv
        have hb' : b = stampItem season scoring_id view_used t0 := by simpa using hb
        subst hb'
        rw [hid] at hbv
        exact absurd hbv (by simp)

theorem foldl_insertItem_inv (season scoring_id : Int) (view_used : Option (List Char))
    (items : List RawItem) (acc : List TxnItem × List Int) (h : AggInv acc) :
    AggInv (items.foldl (insertItem season scoring_id view_used) acc) := by
  induction items generalizing acc with
  | nil => exact h
  | cons r rest ih =>
    rw [List.foldl_cons]
    exact ih _ (insertItem_inv season scoring_id view_used acc r h)

theorem insertItem_extends (season scoring_id : Int) (view_used : Option (List Char))
    (acc : List TxnItem × List Int) (raw : RawItem) :
    ∃ t : List TxnItem, (insertItem season scoring_id view_used acc raw).1 = acc.1 ++ t := by
  rcases raw with t0 | x
  case nondict => exact ⟨[], by simp [insertItem]⟩
  case dict =>
    rw [insertItem]
    cases (stampItem season scoring_id view_used t0).id with
    | some i =>
      dsimp only
      by_cases hin : i ∈ acc.2
      · rw [if_pos hin]; exact ⟨[], by simp⟩
      · rw [if_neg hin]; exact ⟨[stampItem season scoring_id view_used t0], rfl⟩
    | none => exact ⟨[stampItem season scoring_id view_used t0], rfl⟩

end Transactions

/-- C3: (1) for every fetch oracle and season the aggregated collection of
`pull_season` has pairwise-distinct transaction identifiers; (2) an item
whose (stamped) identifier is already in the seen set is dropped — the
accumulator, and with it the first-seen record, is returned completely
unchanged; (3) one aggregation step only ever appends: records already in
the collection are never modified. -/
theorem c3_pull_season_dedup :
    (∀ (fetchPeriod : Int → List Transactions.RawItem × Option (List Char))
        (season : Int) (max_scoring : Nat),
        Transactions.DistinctIds
          (Transactions.pull_season_transactions fetchPeriod season max_scoring).1) ∧
      (∀ (season scoring_id : Int) (view_used : Option (List Char))
          (acc : List Transactions.TxnItem × List Int) (t0 : Transactions.TxnItem)
          (i : Int), t0.id = some i → i ∈ acc.2 →
          Transactions.insertItem season scoring_id view_used acc (.dict t0) = acc) ∧
      (∀ (season scoring_id : Int) (view_used : Option (List Char))
          (acc : List Transactions.TxnItem × List Int) (raw : Transactions.RawItem),
          ∃ t : List Transactions.TxnItem,
            (Transactions.insertItem season scoring_id view_used acc raw).1 = acc.1 ++ t) := by
  refine ⟨?_, ?_, Transactions.insertItem_extends⟩
  · intro fetchPeriod season max_scoring
    have h : Transactions.AggInv
        (Transactions.pull_season_transactions fetchPeriod season max_scoring) := by
      rw [Transactions.pull_season_transactions]
      generalize List.range max_scoring = ks
      induction ks using List.reverseRecOn with
      | nil => exact ⟨by simp, List.Pairwise.nil⟩
      | append_singleton ks k ih =>
        rw [List.foldl_append, List.foldl_cons, List.foldl_nil]
        exact Transactions.foldl_insertItem_inv _ _ _ _ _ ih
    exact h.2
  · intro season scoring_id view_used acc t0 i hid hin
    rw [Transactions.insertItem, Transactions.stampItem_id, hid]
    dsimp only
    rw [if_pos hin]

/-- C3 witness: the theorem's drop clause evaluated at a concrete
accumulator already containing id 3 — re-presenting an item with id 3
returns the accumulator unchanged — together with the dedup property on a
concrete two-period run presenting the same id twice. -/
theorem c3_witness :
    Transactions.insertItem 2024 2 none
        ([⟨some 3, some 2024, some 1, none, 0⟩], [3])
        (.dict ⟨some 3, none, none, none, 7⟩) =
      ([⟨some 3, some 2024, some 1, none, 0⟩], [3]) ∧
      Transactions.DistinctIds
        (Transactions.pull_season_transactions
          (fun _ => ([.dict ⟨some 3, none, none, none, 7⟩], none)) 2024 2).1 := by
  constructor
  · exact c3_pull_season_dedup.2.1 2024 2 none
      ([⟨some 3, some 2024, some 1, none, 0⟩], [3]) ⟨some 3, none, none, none, 7⟩ 3 rfl
      (by simp)
  · exact c3_pull_season_dedup.1 (fun _ => ([.dict ⟨some 3, none, none, none, 7⟩], none)) 2024 2

/-! ### C5 — pagination negotiation
(`scripts/pull_espn_athletes_index.py:54-110`, `main`)

A candidate convention is a pair of parameter names.  `fetchResp s p` is the
outcome of `fetch_json(session, BASE_URL, params={s.1: p, s.2: limit})`:
`none` when `fetch_json` raised (caught by the probe's `except`), otherwise
the decoded JSON.  Each function also records the `(style, page)` parameter
pairs of the requests it issues. -/

namespace AthletesIndex

end AthletesIndex

/-! ### String-shape infrastructure for the credential normalizer

To reason about `normalize_cookie` we characterise the strings produced by
`" ".join(s.split())`: every whitespace character is a single `' '`, no two
spaces are adjacent, and no space begins or ends the string. -/

namespace Py

/-- Every whitespace character of the list is a plain `' '`. -/
def spOkB (l : List Char) : Bool := l.all (fun c => !pyIsSpace c || c = ' ')

/-- No two adjacent whitespace characters. -/
def noDblB : List Char → Bool
  | [] => true
  | [_] => true
  | c :: d :: rest => !(pyIsSpace c && pyIsSpace d) && noDblB (d :: rest)

/-- The first character, if any, is not whitespace. -/
def headOkB : List Char → Bool
  | [] => true
  | c :: _ => !pyIsSpace c

/-- The last character, if any, is not whitespace. -/
def lastOkB : List Char → Bool
  | [] => true
  | [c] => !pyIsSpace c
  | _ :: d :: rest => lastOkB (d :: rest)

/-- The canonical shape of whitespace-collapsed strings. -/
def niceB (l : List Char) : Bool := spOkB l && noDblB l && headOkB l && lastOkB l

theorem noDblB_tail {c : Char} {l : List Char} (h : noDblB (c :: l) = true) :
    noDblB l = true := by
  cases l with
  | nil => rfl
  | cons d rest =>
    rw [noDblB] at h
    exact (Bool.and_eq_true _ _ |>.mp h).2

theorem lastOkB_cons_of_ne_nil {c : Char} {l : List Char} (hne : l ≠ []) :
    lastOkB (c :: l) = lastOkB l := by
  cases l with
  | nil => exact absurd rfl hne
  | cons d rest => rfl

theorem lastOkB_append {x y : List Char} (hy : y ≠ []) :
    lastOkB (x ++ y) = lastOkB y := by
  induction x with
  | nil => rfl
  | cons c x' ih =>
    have hne : x' ++ y ≠ [] := by
      intro h
      exact hy (List.append_eq_nil.mp h).2
    rw [List.cons_append, lastOkB_cons_of_ne_nil hne, ih]

theorem spOkB_append {x y : List Char} :
    spOkB (x ++ y) = (spOkB x && spOkB y) := by
  simp [spOkB, List.all_append]

theorem spOkB_tail {c : Char} {l : List Char} (h : spOkB (c :: l) = true) :
    spOkB l = true := by
  simp only [spOkB, List.all_cons, Bool.and_eq_true] at h ⊢
  exact h.2

theorem noDblB_append_right {x y : List Char} (h : noDblB (x ++ y) = true) :
    noDblB y = true := by
  induction x with
  | nil => exact h
  | cons c x' ih =>
    rw [List.cons_append] at h
    exact ih (noDblB_tail h)

theorem noDblB_append {x y : List Char} (hx : noDblB x = true) (hlx : lastOkB x = true)
    (hy : noDblB y = true) : noDblB (x ++ y) = true := by
  induction x with
  | nil => exact hy
  | cons c x' ih =>
    cases x' with
    | nil =>
      cases y with
      | nil => rfl
      | cons d ys =>
        rw [List.singleton_append, noDblB]
        have hc : pyIsSpace c = false := by
          simpa [lastOkB] using hlx
        simp [hc, hy]
    | cons e x'' =>
      rw [List.cons_append, List.cons_append, noDblB]
      rw [noDblB] at hx
      rcases Bool.and_eq_true _ _ |>.mp hx with ⟨h1, h2⟩
      rw [lastOkB_cons_of_ne_nil (by simp)] at hlx
      have := ih h2 hlx
      rw [List.cons_append] at this
      simp [h1, this]

theorem headOkB_append {x y : List Char} (hx : headOkB x = true) (hy : headOkB y = true) :
    headOkB (x ++ y) = true := by
  cases x with
  | nil => exact hy
  | cons c x' => exact hx

theorem niceB_append {x y : List Char} (hx : niceB x = true) (hy : niceB y = true) :
    niceB (x ++ y) = true := by
  simp only [niceB, Bool.and_eq_true] at hx hy
  rcases hx with ⟨⟨⟨hxs, hxd⟩, hxh⟩, hxl⟩
  rcases hy with ⟨⟨⟨hys, hyd⟩, hyh⟩, hyl⟩
  cases hyn : y with
  | nil =>
    subst hyn
    simp only [List.append_nil, niceB, Bool.and_eq_true]
    exact ⟨⟨⟨hxs, hxd⟩, hxh⟩, hxl⟩
  | cons d ys =>
    have hyne : y ≠ [] := by simp [hyn]
    rw [← hyn]
    simp only [niceB, Bool.and_eq_true]
    refine ⟨⟨⟨by simp [spOkB_append, hxs, hys], ?_⟩,
      headOkB_append hxh hyh⟩, by rw [lastOkB_append hyne]; exact hyl⟩
    by_cases hxn : x = []
    · subst hxn; exact hyd
    · -- boundary: last of x is non-space, head of y non-space
      have : noDblB (y) = true := hyd
      -- prepend x using noDblB_append
      exact noDblB_append hxd hxl hyd

theorem mem_pyStripR {x : Char} : ∀ {l : List Char}, x ∈ pyStripR l → x ∈ l := by
  intro l
  induction l with
  | nil => intro h; simp [pyStripR] at h
  | cons c rest ih =>
    intro h
    rw [pyStripR] at h
    revert h
    cases hr : pyStripR rest with
    | nil =>
      by_cases hc : pyIsSpace c = true
      · simp [hc]
      · intro h
        have : x = c := by
          simpa [Bool.not_eq_true _ ▸ hc] using h
        simp [this]
    | cons a r =>
      intro h
      rcases List.mem_cons.mp h with rfl | h
      · exact List.mem_cons_self _ _
      · exact List.mem_cons_of_mem _ (ih (by rw [hr]; exact h))

theorem pyStripR_shape (c : Char) (rest : List Char) :
    pyStripR (c :: rest) = [] ∨ ∃ r, pyStripR (c :: rest) = c :: r := by
  rw [pyStripR]
  cases pyStripR rest with
  | nil =>
    by_cases hc : pyIsSpace c = true
    · exact Or.inl (by simp [hc])
    · exact Or.inr ⟨[], by simp [hc]⟩
  | cons a r => exact Or.inr ⟨a :: r, rfl⟩

theorem lastOkB_pyStripR : ∀ (l : List Char), lastOkB (pyStripR l) = true := by
  intro l
  induction l with
  | nil => rfl
  | cons c rest ih =>
    rw [pyStripR]
    cases hr : pyStripR rest with
    | nil =>
      by_cases hc : pyIsSpace c = true
      · simp [hc, lastOkB]
      · simp [hc, lastOkB]
    | cons a r =>
      rw [hr] at ih
      rw [lastOkB_cons_of_ne_nil (by simp)]
      exact ih

theorem noDblB_pyStripR : ∀ {l : List Char}, noDblB l = true → noDblB (pyStripR l) = true := by
  intro l
  induction l with
  | nil => intro _; rfl
  | cons c rest ih =>
    intro h
    rw [pyStripR]
    cases hr : pyStripR rest with
    | nil =>
      by_cases hc : pyIsSpace c = true
      · simp [hc, noDblB]
      · simp [hc, noDblB]
    | cons a r =>
      cases rest with
      | nil => simp [pyStripR] at hr
      | cons d rest' =>
        rcases pyStripR_shape d rest' with hsh | ⟨r', hsh⟩
        · rw [hsh] at hr; exact absurd hr (by simp)
        · rw [hsh] at hr
          injection hr with ha hrr
          subst ha
          rw [noDblB] at h
          rcases Bool.and_eq_true _ _ |>.mp h with ⟨h1, h2⟩
          have := ih h2
          rw [hsh] at this
          rw [noDblB]
          subst hrr
          simp [h1, this]

theorem mem_pyStripL {x : Char} {l : List Char} (h : x ∈ pyStripL l) : x ∈ l :=
  (List.dropWhile_sublist _).mem h

theorem headOkB_pyStripL (l : List Char) : headOkB (pyStripL l) = true := by
  induction l with
  | nil => rfl
  | cons c rest ih =>
    rw [pyStripL, List.dropWhile]
    by_cases hc : pyIsSpace c = true
    · simp only [hc]
      exact ih
    · simp only [Bool.not_eq_true _ ▸ hc]
      simpa [headOkB] using hc

theorem noDblB_pyStripL {l : List Char} (h : noDblB l = true) :
    noDblB (pyStripL l) = true := by
  induction l with
  | nil => exact h
  | cons c rest ih =>
    rw [pyStripL, List.dropWhile]
    by_cases hc : pyIsSpace c = true
    · simp only [hc]
      exact ih (noDblB_tail h)
    · simp only [Bool.not_eq_true _ ▸ hc]
      exact h

theorem headOkB_pyStrip (l : List Char) : headOkB (pyStrip l) = true := by
  rw [pyStrip]
  cases hl : pyStripL l with
  | nil => rfl
  | cons c r =>
    have hhead : headOkB (c :: r) = true := hl ▸ headOkB_pyStripL l
    rcases pyStripR_shape c r with hsh | ⟨r', hsh⟩
    · rw [hsh]; rfl
    · rw [hsh]
      simpa [headOkB] using hhead

theorem mem_pyStrip {x : Char} {l : List Char} (h : x ∈ pyStrip l) : x ∈ l :=
  mem_pyStripL (mem_pyStripR h)

theorem spOkB_of_sub {m l : List Char} (hsub : ∀ c, c ∈ m → c ∈ l)
    (h : spOkB l = true) : spOkB m = true := by
  simp only [spOkB, List.all_eq_true] at h ⊢
  exact fun c hc => h c (hsub c hc)

theorem niceB_pyStrip {l : List Char} (hs : spOkB l = true) (hd : noDblB l = true) :
    niceB (pyStrip l) = true := by
  simp only [niceB, Bool.and_eq_true]
  refine ⟨⟨⟨spOkB_of_sub (fun c hc => mem_pyStrip hc) hs, ?_⟩, headOkB_pyStrip l⟩,
    lastOkB_pyStripR _⟩
  exact noDblB_pyStripR (noDblB_pyStripL hd)

theorem pyStripL_eq_self {l : List Char} (h : headOkB l = true) : pyStripL l = l := by
  cases l with
  | nil => rfl
  | cons c rest =>
    have : pyIsSpace c = false := by simpa [headOkB] using h
    simp [pyStripL, List.dropWhile, this]

theorem pyStripR_eq_self : ∀ {l : List Char}, lastOkB l = true → pyStripR l = l := by
  intro l
  induction l with
  | nil => intro _; rfl
  | cons c rest ih =>
    intro h
    rw [pyStripR]
    cases rest with
    | nil =>
      have : pyIsSpace c = false := by simpa [lastOkB] using h
      simp [pyStripR, this]
    | cons d rest' =>
      have hr : pyStripR (d :: rest') = d :: rest' := by
        exact ih (by simpa [lastOkB_cons_of_ne_nil] using h)
      rw [hr]

theorem pyStrip_eq_self {l : List Char} (h : niceB l = true) : pyStrip l = l := by
  simp only [niceB, Bool.and_eq_true] at h
  rw [pyStrip, pyStripL_eq_self h.1.2, pyStripR_eq_self h.2]

theorem niceB_of_nospace {l : List Char} (h : ∀ c ∈ l, pyIsSpace c = false) :
    niceB l = true := by
  simp only [niceB, Bool.and_eq_true]
  refine ⟨⟨⟨?_, ?_⟩, ?_⟩, ?_⟩
  · simp only [spOkB, List.all_eq_true]
    intro c hc; simp [h c hc]
  · induction l with
    | nil => rfl
    | cons c rest ih =>
      cases rest with
      | nil => rfl
      | cons d rest' =>
        rw [noDblB]
        have hc := h c (by simp)
        have := ih (fun x hx => h x (List.mem_cons_of_mem c hx))
        simp [hc, this]
  · cases l with
    | nil => rfl
    | cons c rest => simpa [headOkB] using h c (by simp)
  · induction l with
    | nil => rfl
    | cons c rest ih =>
      cases rest with
      | nil => simpa [lastOkB] using h c (by simp)
      | cons d rest' =>
        rw [lastOkB_cons_of_ne_nil (by simp)]
        exact ih (fun x hx => h x (List.mem_cons_of_mem c hx))

theorem niceB_proj {l : List Char} (h : niceB l = true) :
    spOkB l = true ∧ noDblB l = true ∧ headOkB l = true ∧ lastOkB l = true := by
  simp only [niceB, Bool.and_eq_true] at h
  exact ⟨h.1.1.1, h.1.1.2, h.1.2, h.2⟩

theorem pySplitWS_words : ∀ (l : List Char), ∀ w ∈ pySplitWS l,
    w ≠ [] ∧ ∀ c ∈ w, pyIsSpace c = false := by
  intro l
  induction l with
  | nil => intro w hw; simp [pySplitWS] at hw
  | cons c rest ih =>
    intro w hw
    rw [pySplitWS.eq_def] at hw
    dsimp only at hw
    by_cases hc : pyIsSpace c = true
    · rw [if_pos hc] at hw
      exact ih w hw
    · rw [if_neg hc] at hw
      have hc' : pyIsSpace c = false := by
        exact Bool.not_eq_true _ ▸ hc
      cases rest with
      | nil =>
        have : w = [c] := by simpa using hw
        subst this
        exact ⟨by simp, by intro x hx; rw [List.mem_singleton.mp hx]; exact hc'⟩
      | cons d rest' =>
        dsimp only at hw
        by_cases hd : pyIsSpace d = true
        · rw [if_pos hd] at hw
          rcases List.mem_cons.mp hw with rfl | hw
          · exact ⟨by simp, by intro x hx; rw [List.mem_singleton.mp hx]; exact hc'⟩
          · exact ih w hw
        · rw [if_neg hd] at hw
          cases hsp : pySplitWS (d :: rest') with
          | nil =>
            rw [hsp] at hw
            have : w = [c] := by simpa using hw
            subst this
            exact ⟨by simp, by intro x hx; rw [List.mem_singleton.mp hx]; exact hc'⟩
          | cons w0 ws0 =>
            rw [hsp] at hw
            rcases List.mem_cons.mp hw with rfl | hw
            · have h0 := ih w0 (by rw [hsp]; exact List.mem_cons_self _ _)
              refine ⟨by simp, ?_⟩
              intro x hx
              rcases List.mem_cons.mp hx with rfl | hx
              · exact hc'
              · exact h0.2 x hx
            · exact ih w (by rw [hsp]; exact List.mem_cons_of_mem _ hw)

theorem joinSpace_cons_cons (c : Char) (w : List Char) (ws : List (List Char)) :
    joinSpace ((c :: w) :: ws) = c :: joinSpace (w :: ws) := by
  cases ws with
  | nil => rfl
  | cons w2 ws' => rfl

theorem joinSpace_cons_of_ne_nil {w : List Char} {ws : List (List Char)} (h : ws ≠ []) :
    joinSpace (w :: ws) = w ++ ' ' :: joinSpace ws := by
  cases ws with
  | nil => exact absurd rfl h
  | cons w2 ws' => rfl

theorem joinSpace_ne_nil {w : List Char} (hw : w ≠ []) (ws : List (List Char)) :
    joinSpace (w :: ws) ≠ [] := by
  cases ws with
  | nil => simpa [joinSpace] using hw
  | cons w2 ws' =>
    rw [joinSpace_cons_of_ne_nil (by simp)]
    simp

theorem headOkB_joinSpace {w : List Char} {ws : List (List Char)}
    (hw : w ≠ []) (hns : ∀ c ∈ w, pyIsSpace c = false) :
    headOkB (joinSpace (w :: ws)) = true := by
  cases w with
  | nil => exact absurd rfl hw
  | cons c w' =>
    rw [joinSpace_cons_cons]
    simpa [headOkB] using hns c (by simp)

theorem lastOkB_joinSpace : ∀ (ws : List (List Char)),
    (∀ w ∈ ws, w ≠ [] ∧ ∀ c ∈ w, pyIsSpace c = false) →
    lastOkB (joinSpace ws) = true := by
  intro ws
  induction ws with
  | nil => intro _; rfl
  | cons w ws' ih =>
    intro h
    cases ws' with
    | nil =>
      rcases h w (by simp) with ⟨hw, hns⟩
      exact (niceB_proj (niceB_of_nospace hns)).2.2.2
    | cons w2 ws'' =>
      rw [joinSpace_cons_of_ne_nil (by simp)]
      have hjne : joinSpace (w2 :: ws'') ≠ [] :=
        joinSpace_ne_nil (h w2 (by simp)).1 ws''
      rw [lastOkB_append (by simp), lastOkB_cons_of_ne_nil hjne]
      exact ih (fun x hx => h x (List.mem_cons_of_mem w hx))

theorem noDblB_joinSpace : ∀ (ws : List (List Char)),
    (∀ w ∈ ws, w ≠ [] ∧ ∀ c ∈ w, pyIsSpace c = false) →
    noDblB (joinSpace ws) = true := by
  intro ws
  induction ws with
  | nil => intro _; rfl
  | cons w ws' ih =>
    intro h
    cases ws' with
    | nil =>
      rcases h w (by simp) with ⟨hw, hns⟩
      exact (niceB_proj (niceB_of_nospace hns)).2.1
    | cons w2 ws'' =>
      rw [joinSpace_cons_of_ne_nil (by simp)]
      rcases h w (by simp) with ⟨hw, hns⟩
      have hnice := niceB_proj (niceB_of_nospace hns)
      refine noDblB_append hnice.2.1 hnice.2.2.2 ?_
      rcases h w2 (by simp) with ⟨hw2, hns2⟩
      cases w2 with
      | nil => exact absurd rfl hw2
      | cons c2 w2' =>
        rw [joinSpace_cons_cons, noDblB]
        have hc2 : pyIsSpace c2 = false := hns2 c2 (by simp)
        have := ih (fun x hx => h x (List.mem_cons_of_mem w hx))
        rw [joinSpace_cons_cons] at this
        simp [hc2, this]

theorem mem_joinSpace {c : Char} : ∀ {ws : List (List Char)}, c ∈ joinSpace ws →
    c = ' ' ∨ ∃ w ∈ ws, c ∈ w := by
  intro ws
  induction ws with
  | nil => intro h; simp [joinSpace] at h
  | cons w ws' ih =>
    intro h
    cases ws' with
    | nil => exact Or.inr ⟨w, by simp, by simpa [joinSpace] using h⟩
    | cons w2 ws'' =>
      rw [joinSpace_cons_of_ne_nil (by simp)] at h
      rcases List.mem_append.mp h with h | h
      · exact Or.inr ⟨w, by simp, h⟩
      · rcases List.mem_cons.mp h with rfl | h
        · exact Or.inl rfl
        · rcases ih h with h | ⟨w', hw', hc⟩
          · exact Or.inl h
          · exact Or.inr ⟨w', List.mem_cons_of_mem w hw', hc⟩

theorem spOkB_joinSpace (ws : List (List Char))
    (h : ∀ w ∈ ws, ∀ c ∈ w, pyIsSpace c = false) :
    spOkB (joinSpace ws) = true := by
  simp only [spOkB, List.all_eq_true]
  intro c hc
  rcases mem_joinSpace hc with rfl | ⟨w, hw, hcw⟩
  · simp
  · simp [h w hw c hcw]

theorem niceB_collapseWS (l : List Char) : niceB (collapseWS l) = true := by
  rw [collapseWS]
  have hwords := pySplitWS_words l
  cases hsp : pySplitWS l with
  | nil => rfl
  | cons w ws =>
    simp only [niceB, Bool.and_eq_true]
    rw [hsp] at hwords
    refine ⟨⟨⟨?_, ?_⟩, ?_⟩, ?_⟩
    · exact spOkB_joinSpace _ (fun x hx => (hwords x hx).2)
    · exact noDblB_joinSpace _ hwords
    · exact headOkB_joinSpace (hwords w (by simp)).1 (hwords w (by simp)).2
    · exact lastOkB_joinSpace _ hwords

theorem pySplitWS_cons_space {d : Char} (hd : pyIsSpace d = true) (r : List Char) :
    pySplitWS (d :: r) = pySplitWS r := by
  rw [pySplitWS.eq_def]
  simp [hd]

theorem pySplitWS_cons_nonspace {d : Char} (hd : pyIsSpace d = false) (r : List Char) :
    ∃ w ws, pySplitWS (d :: r) = w :: ws := by
  rw [pySplitWS.eq_def]
  dsimp only
  rw [if_neg (by simp [hd])]
  cases r with
  | nil => exact ⟨[d], [], rfl⟩
  | cons e r' =>
    dsimp only
    by_cases he : pyIsSpace e = true
    · rw [if_pos he]; exact ⟨[d], pySplitWS (e :: r'), rfl⟩
    · rw [if_neg he]
      cases pySplitWS (e :: r') with
      | nil => exact ⟨[d], [], rfl⟩
      | cons w ws => exact ⟨d :: w, ws, rfl⟩

theorem collapseWS_fix_aux : ∀ (n : Nat) (l : List Char), l.length ≤ n →
    niceB l = true → collapseWS l = l := by
  intro n
  induction n with
  | zero =>
    intro l hl _
    have : l = [] := List.length_eq_zero.mp (Nat.le_zero.mp hl)
    subst this; rfl
  | succ m ih =>
    intro l hl hn
    rcases niceB_proj hn with ⟨hsp, hdbl, hhead, hlast⟩
    cases l with
    | nil => rfl
    | cons c rest =>
      have hc : pyIsSpace c = false := by simpa [headOkB] using hhead
      cases rest with
      | nil => simp [collapseWS, pySplitWS, hc, joinSpace]
      | cons d rest' =>
        by_cases hd : pyIsSpace d = true
        · -- a single space: it must be ' ', followed by a non-space character
          have hdsp : d = ' ' := by
            simp only [spOkB, List.all_eq_true] at hsp
            have := hsp d (by simp)
            simpa [hd] using this
          have hrne : rest' ≠ [] := by
            intro h
            subst h
            rw [lastOkB_cons_of_ne_nil (by simp)] at hlast
            simp [lastOkB, hd] at hlast
          obtain ⟨e, rest'', rfl⟩ := List.exists_cons_of_ne_nil hrne
          have hdb2 : noDblB (d :: e :: rest'') = true := noDblB_tail hdbl
          have he : pyIsSpace e = false := by
            rw [noDblB] at hdb2
            rcases Bool.and_eq_true _ _ |>.mp hdb2 with ⟨h1, _⟩
            cases hee : pyIsSpace e
            · rfl
            · rw [hd, hee] at h1; simp at h1
          have hnice' : niceB (e :: rest'') = true := by
            simp only [niceB, Bool.and_eq_true]
            refine ⟨⟨⟨?_, ?_⟩, by simpa [headOkB] using he⟩, ?_⟩
            · exact spOkB_tail (spOkB_tail hsp)
            · exact noDblB_tail hdb2
            · rw [lastOkB_cons_of_ne_nil (by simp)] at hlast
              rw [lastOkB_cons_of_ne_nil (by simp)] at hlast
              exact hlast
          have hlen : (e :: rest'').length ≤ m := by
            simp only [List.length_cons] at hl ⊢
            omega
          have hih := ih (e :: rest'') hlen hnice'
          rcases pySplitWS_cons_nonspace he rest'' with ⟨w, ws, hsp'⟩
          rw [collapseWS, pySplitWS.eq_def]
          dsimp only
          rw [if_neg (by simp [hc]), if_pos hd, pySplitWS_cons_space hd, hsp',
            joinSpace_cons_of_ne_nil (by simp)]
          rw [collapseWS, hsp'] at hih
          rw [hih, hdsp]
          rfl
        · have hd' : pyIsSpace d = false := by simpa using hd
          have hnice' : niceB (d :: rest') = true := by
            simp only [niceB, Bool.and_eq_true]
            refine ⟨⟨⟨spOkB_tail hsp, noDblB_tail hdbl⟩, by simpa [headOkB] using hd'⟩, ?_⟩
            rw [lastOkB_cons_of_ne_nil (by simp)] at hlast
            exact hlast
          have hlen : (d :: rest').length ≤ m := by
            simp only [List.length_cons] at hl ⊢
            omega
          have hih := ih (d :: rest') hlen hnice'
          rcases pySplitWS_cons_nonspace hd' rest' with ⟨w, ws, hsp'⟩
          rw [collapseWS, pySplitWS.eq_def]
          dsimp only
          rw [if_neg (by simp [hc]), if_neg (by simp [hd']), hsp']
          rw [collapseWS, hsp'] at hih
          rw [joinSpace_cons_cons, hih]

/-- A whitespace-canonical string is a fixed point of `" ".join(s.split())`. -/
theorem collapseWS_fix {l : List Char} (h : niceB l = true) : collapseWS l = l :=
  collapseWS_fix_aux l.length l le_rfl h

theorem pySplitOn_ne_nil (sep : Char) : ∀ (l : List Char), pySplitOn sep l ≠ [] := by
  intro l
  cases l with
  | nil => simp [pySplitOn]
  | cons c rest =>
    rw [pySplitOn]
    by_cases hc : c = sep
    · simp [hc]
    · rw [if_neg hc]
      cases pySplitOn sep rest with
      | nil => simp
      | cons p ps => simp

theorem pySplitOn_cons_sep {sep : Char} (r : List Char) :
    pySplitOn sep (sep :: r) = [] :: pySplitOn sep r := by
  rw [pySplitOn, if_pos rfl]

theorem pySplitOn_cons_shape {sep d : Char} (hd : d ≠ sep) (r : List Char) :
    ∃ q qs, pySplitOn sep (d :: r) = (d :: q) :: qs ∧ pySplitOn sep r = q :: qs := by
  rw [pySplitOn, if_neg hd]
  cases hq : pySplitOn sep r with
  | nil => exact absurd hq (pySplitOn_ne_nil sep r)
  | cons q qs => exact ⟨q, qs, rfl, rfl⟩

theorem pySplitOn_parts {sep : Char} (hsep : pyIsSpace sep = false) :
    ∀ (l : List Char), spOkB l = true → noDblB l = true →
    ∀ part ∈ pySplitOn sep l,
      sep ∉ part ∧ spOkB part = true ∧ noDblB part = true := by
  intro l
  induction l with
  | nil =>
    intro _ _ part hp
    have : part = [] := by simpa [pySplitOn] using hp
    subst this
    exact ⟨by simp, rfl, rfl⟩
  | cons c rest ih =>
    intro hsp hdbl part hp
    by_cases hc : c = sep
    · subst hc
      rw [pySplitOn_cons_sep] at hp
      rcases List.mem_cons.mp hp with rfl | hp
      · exact ⟨by simp, rfl, rfl⟩
      · exact ih (spOkB_tail hsp) (noDblB_tail hdbl) part hp
    · rcases pySplitOn_cons_shape hc rest with ⟨q, qs, hshape, hrest⟩
      rw [hshape] at hp
      rcases List.mem_cons.mp hp with rfl | hp
      · have hq : sep ∉ q ∧ spOkB q = true ∧ noDblB q = true :=
          ih (spOkB_tail hsp) (noDblB_tail hdbl) q (by rw [hrest]; simp)
        refine ⟨?_, ?_, ?_⟩
        · intro hmem
          rcases List.mem_cons.mp hmem with h | h
          · exact hc h.symm
          · exact hq.1 h
        · simp only [spOkB, List.all_cons, List.all_eq_true, Bool.and_eq_true] at hsp ⊢
          exact ⟨hsp.1, by simpa [spOkB, List.all_eq_true] using hq.2.1⟩
        · cases q with
          | nil => rfl
          | cons x q' =>
            rw [noDblB]
            refine Bool.and_eq_true _ _ |>.mpr ⟨?_, hq.2.2⟩
            -- x is the head of rest, so adjacency comes from the whole string
            cases rest with
            | nil => simp [pySplitOn] at hrest
            | cons e rest' =>
              by_cases he : e = sep
              · subst he
                rw [pySplitOn_cons_sep] at hrest
                injection hrest with h1 _
                exact absurd h1.symm (by simp)
              · rcases pySplitOn_cons_shape he rest' with ⟨q2, qs2, hshape2, _⟩
                rw [hshape2] at hrest
                injection hrest with h1 _
                have hx : e = x := by
                  have := congrArg (fun t => t.headI) h1
                  simpa using this
                subst hx
                rw [noDblB] at hdbl
                exact (Bool.and_eq_true _ _ |>.mp hdbl).1
      · exact ih (spOkB_tail hsp) (noDblB_tail hdbl) part (by rw [hrest]; exact List.mem_cons_of_mem q hp)

theorem pySplitOn_no_sep {sep : Char} : ∀ {l : List Char}, sep ∉ l →
    pySplitOn sep l = [l] := by
  intro l
  induction l with
  | nil => intro _; rfl
  | cons c rest ih =>
    intro h
    have hc : c ≠ sep := fun hh => h (by simp [hh])
    rcases pySplitOn_cons_shape hc rest with ⟨q, qs, hshape, hrest⟩
    rw [hshape]
    have : pySplitOn sep rest = [rest] := ih (fun hh => h (List.mem_cons_of_mem c hh))
    rw [this] at hrest
    injection hrest with h1 h2
    rw [h1, h2]

theorem pySplitOn_append {sep : Char} : ∀ {x : List Char} (y : List Char), sep ∉ x →
    pySplitOn sep (x ++ sep :: y) = x :: pySplitOn sep y := by
  intro x
  induction x with
  | nil => intro y _; exact pySplitOn_cons_sep y
  | cons c x' ih =>
    intro y h
    have hc : c ≠ sep := fun hh => h (by simp [hh])
    rw [List.cons_append]
    rcases pySplitOn_cons_shape hc (x' ++ sep :: y) with ⟨q, qs, hshape, hrest⟩
    rw [hshape]
    have := ih y (fun hh => h (List.mem_cons_of_mem c hh))
    rw [this] at hrest
    injection hrest with h1 h2
    rw [h1, h2]

theorem splitFirst_structure {sep : Char} : ∀ {l k v : List Char},
    splitFirst sep l = some (k, v) → l = k ++ sep :: v ∧ sep ∉ k := by
  intro l
  induction l with
  | nil => intro k v h; simp [splitFirst] at h
  | cons c rest ih =>
    intro k v h
    rw [splitFirst] at h
    by_cases hc : c = sep
    · rw [if_pos hc] at h
      injection h with h1
      injection h1 with hk hv
      subst hc; subst hv
      rw [← hk]
      exact ⟨by simp, by simp⟩
    · rw [if_neg hc] at h
      revert h
      cases hr : splitFirst sep rest with
      | none => intro h; exact absurd h (by simp)
      | some kv =>
        intro h
        obtain ⟨k0, v0⟩ := kv
        have h' : (c :: k0, v0) = (k, v) := by simpa using h
        injection h' with hk hv
        subst hv
        rcases ih hr with ⟨hstr, hnot⟩
        rw [← hk]
        constructor
        · rw [List.cons_append, ← hstr]
        · intro hmem
          rcases List.mem_cons.mp hmem with h | h
          · exact hc h.symm
          · exact hnot h

theorem splitFirst_append {sep : Char} : ∀ {k : List Char} (v : List Char), sep ∉ k →
    splitFirst sep (k ++ sep :: v) = some (k, v) := by
  intro k
  induction k with
  | nil => intro v _; rw [List.nil_append, splitFirst, if_pos rfl]
  | cons c k' ih =>
    intro v h
    have hc : c ≠ sep := fun hh => h (by simp [hh])
    rw [List.cons_append, splitFirst, if_neg hc, ih v (fun hh => h (List.mem_cons_of_mem c hh))]

theorem pySplitWS_word : ∀ {w : List Char}, (∀ c ∈ w, pyIsSpace c = false) → w ≠ [] →
    pySplitWS w = [w] := by
  intro w
  induction w with
  | nil => intro _ h; exact absurd rfl h
  | cons c w' ih =>
    intro hns _
    have hc : pyIsSpace c = false := hns c (by simp)
    rw [pySplitWS.eq_def]
    dsimp only
    rw [if_neg (by simp [hc])]
    cases w' with
    | nil => rfl
    | cons d w'' =>
      dsimp only
      have hd : pyIsSpace d = false := hns d (by simp)
      rw [if_neg (by simp [hd])]
      rw [ih (fun x hx => hns x (List.mem_cons_of_mem c hx)) (by simp)]

theorem pySplitWS_word_append : ∀ {w : List Char} (r : List Char),
    (∀ c ∈ w, pyIsSpace c = false) → w ≠ [] →
    pySplitWS (w ++ ' ' :: r) = w :: pySplitWS r := by
  intro w
  induction w with
  | nil => intro r _ h; exact absurd rfl h
  | cons c w' ih =>
    intro r hns _
    have hc : pyIsSpace c = false := hns c (by simp)
    rw [List.cons_append, pySplitWS.eq_def]
    dsimp only
    rw [if_neg (by simp [hc])]
    cases w' with
    | nil =>
      simp only [List.nil_append]
      rw [if_pos (by simp [pyIsSpace]), pySplitWS_cons_space (by simp [pyIsSpace])]
    | cons d w'' =>
      simp only [List.cons_append]
      have hd : pyIsSpace d = false := hns d (by simp)
      rw [if_neg (by simp [hd])]
      rw [← List.cons_append, ih r (fun x hx => hns x (List.mem_cons_of_mem c hx)) (by simp)]

end Py

/-! ### C10 — credential normalizer idempotence

Both scripts define a `normalize_cookie`; `scripts/pull_espn_transactions.py`
(lines 24-42) splits on `;` and on the first `=` of each part, while
`scripts/pull_espn_lineups.py` (lines 14-35) replaces `;` by spaces, splits
on whitespace, and falls back to `:` when a part has no `=`. -/

/-- The two recognized secret field names and the `Cookie:` label. -/
def s2Key : List Char := "espn_s2".toList

def swidKey : List Char := "SWID".toList

def cookiePat : List Char := "cookie:".toList

/-- The values extracted for the two recognized fields. -/
structure CookieVals where
  s2 : Option (List Char)
  swid : Option (List Char)

/-- The fixed, ordered re-emission `"; ".join(ordered)` with `espn_s2`
first. -/
def renderVals (vs : CookieVals) : List Char :=
  match vs.s2, vs.swid with
  | some a, some b => s2Key ++ '=' :: a ++ ';' :: ' ' :: (swidKey ++ '=' :: b)
  | some a, none => s2Key ++ '=' :: a
  | none, some b => swidKey ++ '=' :: b
  | none, none => []

/-- Lines 25-27 of both scripts: strip, and when the text starts with the
(case-insensitive) label `cookie:`, keep only the part after the first `:`,
stripped. -/
def decookie (l : List Char) : List Char :=
  if pyStartsWith (pyLower l) cookiePat then
    match splitFirst ':' l with
    | some kv => pyStrip kv.2
    | none => []
  else l

/-- Field assignment `values[key] = value` restricted to the recognized
keys. -/
def assignVal (key value : List Char) (vs : CookieVals) : CookieVals :=
  if key = s2Key then { vs with s2 := some value }
  else if key = swidKey then { vs with swid := some value }
  else vs

namespace Transactions

/-- Lines 30-36: per-part extraction — skip parts without `=`, split at the
first `=`, strip both sides, keep recognized keys. -/
def updateVals (vs : CookieVals) (part : List Char) : CookieVals :=
  match splitFirst '=' part with
  | none => vs
  | some kv => assignVal (pyStrip kv.1) (pyStrip kv.2) vs

/-- `normalize_cookie` of `scripts/pull_espn_transactions.py`. -/
def normalize_cookie (raw0 : List Char) : List Char :=
  renderVals (((pySplitOn ';' (collapseWS (decookie (pyStrip raw0))))).foldl
    updateVals ⟨none, none⟩)

end Transactions

namespace Lineups

/-- `";" → " "` replacement of line 20. -/
def repSemi (c : Char) : Char := if c = ';' then ' ' else c

/-- Lines 20-29: per-part extraction — split at the first `=`, else at the
first `:`, else skip; strip both sides, keep recognized keys. -/
def updateVals (vs : CookieVals) (part : List Char) : CookieVals :=
  match splitFirst '=' part with
  | some kv => assignVal (pyStrip kv.1) (pyStrip kv.2) vs
  | none =>
    match splitFirst ':' part with
    | some kv => assignVal (pyStrip kv.1) (pyStrip kv.2) vs
    | none => vs

/-- `normalize_cookie` of `scripts/pull_espn_lineups.py`. -/
def normalize_cookie (raw0 : List Char) : List Char :=
  renderVals ((pySplitWS ((collapseWS (decookie (pyStrip raw0))).map repSemi)).foldl
    updateVals ⟨none, none⟩)

end Lineups

/-- The invariant satisfied by every extracted credential value: canonical
whitespace shape and no `;`. -/
def GoodV (a : List Char) : Prop := niceB a = true ∧ ';' ∉ a

def GoodVals (vs : CookieVals) : Prop :=
  (∀ a, vs.s2 = some a → GoodV a) ∧ (∀ b, vs.swid = some b → GoodV b)

theorem goodVals_init : GoodVals ⟨none, none⟩ :=
  ⟨fun a h => by simp at h, fun b h => by simp at h⟩

theorem assignVal_good {key value : List Char} {vs : CookieVals}
    (hv : GoodV value) (h : GoodVals vs) : GoodVals (assignVal key value vs) := by
  rw [assignVal]
  by_cases h1 : key = s2Key
  · rw [if_pos h1]
    exact ⟨fun a ha => by
      have : value = a := by simpa using ha
      exact this ▸ hv, h.2⟩
  · rw [if_neg h1]
    by_cases h2 : key = swidKey
    · rw [if_pos h2]
      exact ⟨h.1, fun b hb => by
        have : value = b := by simpa using hb
        exact this ▸ hv⟩
    · rw [if_neg h2]
      exact h

theorem goodV_of_strip {v : List Char} (hs : spOkB v = true) (hd : noDblB v = true)
    (hns : ';' ∉ v) : GoodV (pyStrip v) :=
  ⟨niceB_pyStrip hs hd, fun hm => hns (mem_pyStrip hm)⟩

theorem noDblB_append_left : ∀ {x y : List Char}, noDblB (x ++ y) = true →
    noDblB x = true := by
  intro x
  induction x with
  | nil => intro _ _; rfl
  | cons a x' ih =>
    intro y h
    cases x' with
    | nil => rfl
    | cons b x'' =>
      rw [List.cons_append, List.cons_append, noDblB] at h
      rcases Bool.and_eq_true _ _ |>.mp h with ⟨h1, h2⟩
      rw [noDblB]
      refine Bool.and_eq_true _ _ |>.mpr ⟨h1, ?_⟩
      exact ih (by rw [List.cons_append]; exact h2)

/-- A value obtained by `splitFirst` from a whitespace-canonical part keeps
the part's shape properties. -/
theorem splitFirst_value_props {sep : Char} {part k v : List Char}
    (h : splitFirst sep part = some (k, v))
    (hsp : spOkB part = true) (hd : noDblB part = true) (hns : ';' ∉ part) :
    (spOkB v = true ∧ noDblB v = true ∧ ';' ∉ v) ∧
      (spOkB k = true ∧ noDblB k = true ∧ ';' ∉ k) := by
  rcases splitFirst_structure h with ⟨hstr, _⟩
  subst hstr
  refine ⟨⟨?_, ?_, ?_⟩, ?_, ?_, ?_⟩
  · exact spOkB_of_sub (fun c hc => by simp [hc]) hsp
  · exact noDblB_tail (noDblB_append_right hd)
  · intro hm; exact hns (by simp [hm])
  · exact spOkB_of_sub (fun c hc => by simp [hc]) hsp
  · exact noDblB_append_left hd
  · intro hm; exact hns (by simp [hm])

theorem tx_updateVals_good {vs : CookieVals} {part : List Char}
    (hsp : spOkB part = true) (hd : noDblB part = true) (hns : ';' ∉ part)
    (h : GoodVals vs) : GoodVals (Transactions.updateVals vs part) := by
  rw [Transactions.updateVals]
  cases hsf : splitFirst '=' part with
  | none => exact h
  | some kv =>
    obtain ⟨k, v⟩ := kv
    rcases splitFirst_value_props hsf hsp hd hns with ⟨⟨h1, h2, h3⟩, _⟩
    exact assignVal_good (goodV_of_strip h1 h2 h3) h

theorem tx_extract_good (m : List Char) :
    GoodVals ((pySplitOn ';' (collapseWS m)).foldl Transactions.updateVals ⟨none, none⟩) := by
  have hnice := niceB_proj (niceB_collapseWS m)
  have hparts := @pySplitOn_parts ';' (by decide) (collapseWS m) hnice.1 hnice.2.1
  have main : ∀ (parts : List (List Char)) (vs : CookieVals),
      (∀ part ∈ parts, ';' ∉ part ∧ spOkB part = true ∧ noDblB part = true) →
      GoodVals vs → GoodVals (parts.foldl Transactions.updateVals vs) := by
    intro parts
    induction parts with
    | nil => intro vs _ hv; exact hv
    | cons p rest ih =>
      intro vs hp hv
      rw [List.foldl_cons]
      rcases hp p (by simp) with ⟨hp1, hp2, hp3⟩
      exact ih _ (fun q hq => hp q (List.mem_cons_of_mem p hq))
        (tx_updateVals_good hp2 hp3 hp1 hv)
  exact main _ _ (fun part hp => hparts part hp) goodVals_init

theorem pyStartsWith_head_ne {c d : Char} (h : c ≠ d) (cs ds : List Char) :
    pyStartsWith (c :: cs) (d :: ds) = false := by
  simp [pyStartsWith, h]

theorem cookiePat_cons : cookiePat = 'c' :: "ookie:".toList := by decide

theorem decookie_cons {c : Char} (r : List Char) (h : c.toLower ≠ 'c') :
    decookie (c :: r) = c :: r := by
  rw [decookie]
  have hsw : pyStartsWith (pyLower (c :: r)) cookiePat = false := by
    rw [cookiePat_cons, pyLower, List.map_cons]
    exact pyStartsWith_head_ne h _ _
  rw [hsw]
  simp

theorem s2Key_cons : s2Key = 'e' :: "spn_s2".toList := by decide

theorem swidKey_cons : swidKey = 'S' :: "WID".toList := by decide

theorem updateVals_part_s2 {a : List Char} (vs : CookieVals) (hna : niceB a = true) :
    Transactions.updateVals vs (s2Key ++ '=' :: a) = { vs with s2 := some a } := by
  rw [Transactions.updateVals, splitFirst_append a (by decide)]
  dsimp only
  rw [assignVal, if_pos (by decide : pyStrip s2Key = s2Key)]
  rw [pyStrip_eq_self hna]

theorem updateVals_part_swid {b : List Char} (vs : CookieVals) (hnb : niceB b = true) :
    Transactions.updateVals vs ((' ' :: swidKey) ++ '=' :: b) = { vs with swid := some b } := by
  rw [Transactions.updateVals, splitFirst_append b (by decide)]
  dsimp only
  rw [assignVal,
    if_neg (by decide : ¬(pyStrip (' ' :: swidKey) = s2Key)),
    if_pos (by decide : pyStrip (' ' :: swidKey) = swidKey)]
  rw [pyStrip_eq_self hnb]

theorem updateVals_part_swid_bare {b : List Char} (vs : CookieVals) (hnb : niceB b = true) :
    Transactions.updateVals vs (swidKey ++ '=' :: b) = { vs with swid := some b } := by
  rw [Transactions.updateVals, splitFirst_append b (by decide)]
  dsimp only
  rw [assignVal,
    if_neg (by decide : ¬(pyStrip swidKey = s2Key)),
    if_pos (by decide : pyStrip swidKey = swidKey)]
  rw [pyStrip_eq_self hnb]

theorem semi_not_mem_s2part {a : List Char} (ha : ';' ∉ a) : ';' ∉ s2Key ++ '=' :: a := by
  intro hm
  rcases List.mem_append.mp hm with hm | hm
  · exact absurd hm (by decide)
  · rcases List.mem_cons.mp hm with hm | hm
    · exact absurd hm (by decide)
    · exact ha hm

theorem semi_not_mem_swidpart {b : List Char} (hb : ';' ∉ b) :
    ';' ∉ (' ' :: (swidKey ++ '=' :: b)) := by
  intro hm
  rcases List.mem_cons.mp hm with hm | hm
  · exact absurd hm (by decide)
  · rcases List.mem_append.mp hm with hm | hm
    · exact absurd hm (by decide)
    · rcases List.mem_cons.mp hm with hm | hm
      · exact absurd hm (by decide)
      · exact hb hm

theorem semi_not_mem_swidpart_bare {b : List Char} (hb : ';' ∉ b) :
    ';' ∉ (swidKey ++ '=' :: b) := by
  intro hm
  rcases List.mem_append.mp hm with hm | hm
  · exact absurd hm (by decide)
  · rcases List.mem_cons.mp hm with hm | hm
    · exact absurd hm (by decide)
    · exact hb hm

theorem niceB_render_both {a b : List Char} (hna : niceB a = true) (hnb : niceB b = true) :
    niceB (s2Key ++ '=' :: a ++ ';' :: ' ' :: (swidKey ++ '=' :: b)) = true := by
  have e1 : s2Key ++ '=' :: a ++ ';' :: ' ' :: (swidKey ++ '=' :: b) =
      (s2Key ++ ['=']) ++ (a ++ ((';' :: ' ' :: swidKey ++ ['=']) ++ b)) := by
    simp
  rw [e1]
  exact niceB_append (by decide)
    (niceB_append hna (niceB_append (by decide) hnb))

theorem niceB_render_s2 {a : List Char} (hna : niceB a = true) :
    niceB (s2Key ++ '=' :: a) = true := by
  have e1 : s2Key ++ '=' :: a = (s2Key ++ ['=']) ++ a := by simp
  rw [e1]
  exact niceB_append (by decide) hna

theorem niceB_render_swid {b : List Char} (hnb : niceB b = true) :
    niceB (swidKey ++ '=' :: b) = true := by
  have e1 : swidKey ++ '=' :: b = (swidKey ++ ['=']) ++ b := by simp
  rw [e1]
  exact niceB_append (by decide) hnb

theorem decookie_s2head (t : List Char) : decookie (s2Key ++ t) = s2Key ++ t := by
  rw [s2Key_cons, List.cons_append]
  exact decookie_cons _ (by decide)

theorem decookie_swidhead (t : List Char) : decookie (swidKey ++ t) = swidKey ++ t := by
  rw [swidKey_cons, List.cons_append]
  exact decookie_cons _ (by decide)

theorem decookie_nil : decookie [] = [] := by
  rw [decookie, cookiePat_cons]
  simp [pyLower, pyStartsWith]

theorem tx_render_fix {vs : CookieVals} (h : GoodVals vs) :
    Transactions.normalize_cookie (renderVals vs) = renderVals vs := by
  obtain ⟨s2, swid⟩ := vs
  cases s2 with
  | none =>
    cases swid with
    | none =>
      rw [Transactions.normalize_cookie]
      rfl
    | some b =>
      have hb : GoodV b := h.2 b rfl
      have hrv : renderVals ⟨none, some b⟩ = swidKey ++ '=' :: b := rfl
      rw [Transactions.normalize_cookie, hrv,
        pyStrip_eq_self (niceB_render_swid hb.1), decookie_swidhead,
        collapseWS_fix (niceB_render_swid hb.1),
        pySplitOn_no_sep (semi_not_mem_swidpart_bare hb.2),
        List.foldl_cons, List.foldl_nil,
        updateVals_part_swid_bare _ hb.1]
      rfl
  | some a =>
    cases swid with
    | none =>
      have ha : GoodV a := h.1 a rfl
      have hrv : renderVals ⟨some a, none⟩ = s2Key ++ '=' :: a := rfl
      rw [Transactions.normalize_cookie, hrv,
        pyStrip_eq_self (niceB_render_s2 ha.1), decookie_s2head,
        collapseWS_fix (niceB_render_s2 ha.1),
        pySplitOn_no_sep (semi_not_mem_s2part ha.2),
        List.foldl_cons, List.foldl_nil,
        updateVals_part_s2 _ ha.1]
      rfl
    | some b =>
      have ha : GoodV a := h.1 a rfl
      have hb : GoodV b := h.2 b rfl
      have hnice := niceB_render_both ha.1 hb.1
      have hrv : renderVals ⟨some a, some b⟩ =
          s2Key ++ '=' :: a ++ ';' :: ' ' :: (swidKey ++ '=' :: b) := rfl
      have hsplit : pySplitOn ';' (s2Key ++ '=' :: a ++ ';' :: ' ' :: (swidKey ++ '=' :: b)) =
          [s2Key ++ '=' :: a, ' ' :: (swidKey ++ '=' :: b)] := by
        have e : s2Key ++ '=' :: a ++ ';' :: ' ' :: (swidKey ++ '=' :: b) =
            (s2Key ++ '=' :: a) ++ ';' :: (' ' :: (swidKey ++ '=' :: b)) := by simp
        rw [e, pySplitOn_append _ (semi_not_mem_s2part ha.2),
          pySplitOn_no_sep (semi_not_mem_swidpart hb.2)]
      have hdec : decookie (s2Key ++ '=' :: a ++ ';' :: ' ' :: (swidKey ++ '=' :: b)) =
          s2Key ++ '=' :: a ++ ';' :: ' ' :: (swidKey ++ '=' :: b) := by
        have e2 : s2Key ++ '=' :: a ++ ';' :: ' ' :: (swidKey ++ '=' :: b) =
            s2Key ++ ('=' :: a ++ ';' :: ' ' :: (swidKey ++ '=' :: b)) := by simp
        rw [e2]
        exact decookie_s2head _
      rw [Transactions.normalize_cookie, hrv,
        pyStrip_eq_self hnice, hdec, collapseWS_fix hnice, hsplit,
        List.foldl_cons, List.foldl_cons, List.foldl_nil,
        updateVals_part_s2 _ ha.1,
        show (' ' :: (swidKey ++ '=' :: b)) = (' ' :: swidKey) ++ '=' :: b from rfl,
        updateVals_part_swid _ hb.1]
      rfl

/-- Invariant for values extracted by the lineups variant: the parts come
from a whitespace split, so values contain no whitespace at all. -/
def GoodVL (a : List Char) : Prop := (∀ c ∈ a, pyIsSpace c = false) ∧ ';' ∉ a

def GoodValsL (vs : CookieVals) : Prop :=
  (∀ a, vs.s2 = some a → GoodVL a) ∧ (∀ b, vs.swid = some b → GoodVL b)

theorem goodVL_goodV {a : List Char} (h : GoodVL a) : GoodV a :=
  ⟨niceB_of_nospace h.1, h.2⟩

theorem goodValsL_init : GoodValsL ⟨none, none⟩ :=
  ⟨fun a h => by simp at h, fun b h => by simp at h⟩

theorem assignVal_goodL {key value : List Char} {vs : CookieVals}
    (hv : GoodVL value) (h : GoodValsL vs) : GoodValsL (assignVal key value vs) := by
  rw [assignVal]
  by_cases h1 : key = s2Key
  · rw [if_pos h1]
    exact ⟨fun a ha => by
      have : value = a := by simpa using ha
      exact this ▸ hv, h.2⟩
  · rw [if_neg h1]
    by_cases h2 : key = swidKey
    · rw [if_pos h2]
      exact ⟨h.1, fun b hb => by
        have : value = b := by simpa using hb
        exact this ▸ hv⟩
    · rw [if_neg h2]
      exact h

theorem pySplitWS_mem_subset : ∀ (l : List Char), ∀ w ∈ pySplitWS l, ∀ c ∈ w, c ∈ l := by
  intro l
  induction l with
  | nil => intro w hw; simp [pySplitWS] at hw
  | cons c rest ih =>
    intro w hw x hx
    rw [pySplitWS.eq_def] at hw
    dsimp only at hw
    by_cases hc : pyIsSpace c = true
    · rw [if_pos hc] at hw
      exact List.mem_cons_of_mem c (ih w hw x hx)
    · rw [if_neg hc] at hw
      cases rest with
      | nil =>
        have : w = [c] := by simpa using hw
        subst this
        simp [List.mem_singleton.mp hx]
      | cons d rest' =>
        dsimp only at hw
        by_cases hd : pyIsSpace d = true
        · rw [if_pos hd] at hw
          rcases List.mem_cons.mp hw with rfl | hw
          · simp [List.mem_singleton.mp hx]
          · exact List.mem_cons_of_mem c (ih w hw x hx)
        · rw [if_neg hd] at hw
          cases hsp : pySplitWS (d :: rest') with
          | nil =>
            rw [hsp] at hw
            have : w = [c] := by simpa using hw
            subst this
            simp [List.mem_singleton.mp hx]
          | cons w0 ws0 =>
            rw [hsp] at hw
            rcases List.mem_cons.mp hw with rfl | hw
            · rcases List.mem_cons.mp hx with rfl | hx
              · simp
              · exact List.mem_cons_of_mem c
                  (ih w0 (by rw [hsp]; exact List.mem_cons_self _ _) x hx)
            · exact List.mem_cons_of_mem c
                (ih w (by rw [hsp]; exact List.mem_cons_of_mem w0 hw) x hx)

theorem repSemi_no_semi (l : List Char) : ';' ∉ l.map Lineups.repSemi := by
  intro hm
  rcases List.mem_map.mp hm with ⟨c, _, hc⟩
  rw [Lineups.repSemi] at hc
  by_cases h : c = ';'
  · rw [if_pos h] at hc; exact absurd hc (by decide)
  · rw [if_neg h] at hc; exact h (hc ▸ rfl)

theorem lin_updateVals_good {vs : CookieVals} {part : List Char}
    (hns : ∀ c ∈ part, pyIsSpace c = false) (hsemi : ';' ∉ part)
    (h : GoodValsL vs) : GoodValsL (Lineups.updateVals vs part) := by
  have hval : ∀ {k v : List Char} {sep : Char}, splitFirst sep part = some (k, v) →
      GoodVL (pyStrip v) := by
    intro k v sep hsf
    rcases splitFirst_structure hsf with ⟨hstr, _⟩
    have hsubv : ∀ c ∈ v, c ∈ part := by
      intro c hc; rw [hstr]; simp [hc]
    exact ⟨fun c hc => hns c (hsubv c (mem_pyStrip hc)),
      fun hm => hsemi (hsubv ';' (mem_pyStrip hm))⟩
  rw [Lineups.updateVals]
  cases hsf : splitFirst '=' part with
  | some kv =>
    obtain ⟨k, v⟩ := kv
    exact assignVal_goodL (hval hsf) h
  | none =>
    cases hsf2 : splitFirst ':' part with
    | some kv =>
      obtain ⟨k, v⟩ := kv
      exact assignVal_goodL (hval hsf2) h
    | none => exact h

theorem lin_extract_good (m : List Char) :
    GoodValsL ((pySplitWS (m.map Lineups.repSemi)).foldl Lineups.updateVals ⟨none, none⟩) := by
  have hparts : ∀ part ∈ pySplitWS (m.map Lineups.repSemi),
      (∀ c ∈ part, pyIsSpace c = false) ∧ ';' ∉ part := by
    intro part hp
    refine ⟨(pySplitWS_words _ part hp).2, ?_⟩
    intro hm
    exact repSemi_no_semi m (pySplitWS_mem_subset _ part hp ';' hm)
  have main : ∀ (parts : List (List Char)) (vs : CookieVals),
      (∀ part ∈ parts, (∀ c ∈ part, pyIsSpace c = false) ∧ ';' ∉ part) →
      GoodValsL vs → GoodValsL (parts.foldl Lineups.updateVals vs) := by
    intro parts
    induction parts with
    | nil => intro vs _ hv; exact hv
    | cons p rest ih =>
      intro vs hp hv
      rw [List.foldl_cons]
      rcases hp p (by simp) with ⟨hp1, hp2⟩
      exact ih _ (fun q hq => hp q (List.mem_cons_of_mem p hq))
        (lin_updateVals_good hp1 hp2 hv)
  exact main _ _ hparts goodValsL_init

theorem map_repSemi_id {w : List Char} (h : ';' ∉ w) : w.map Lineups.repSemi = w := by
  induction w with
  | nil => rfl
  | cons c w' ih =>
    rw [List.map_cons, ih (fun hm => h (List.mem_cons_of_mem c hm))]
    have hc : c ≠ ';' := fun hh => h (by simp [hh])
    rw [Lineups.repSemi, if_neg hc]

theorem lin_updateVals_part_s2 {a : List Char} (vs : CookieVals)
    (ha : ∀ c ∈ a, pyIsSpace c = false) :
    Lineups.updateVals vs (s2Key ++ '=' :: a) = { vs with s2 := some a } := by
  rw [Lineups.updateVals, splitFirst_append a (by decide)]
  dsimp only
  rw [assignVal, if_pos (by decide : pyStrip s2Key = s2Key)]
  rw [pyStrip_eq_self (niceB_of_nospace ha)]

theorem lin_updateVals_part_swid {b : List Char} (vs : CookieVals)
    (hb : ∀ c ∈ b, pyIsSpace c = false) :
    Lineups.updateVals vs (swidKey ++ '=' :: b) = { vs with swid := some b } := by
  rw [Lineups.updateVals, splitFirst_append b (by decide)]
  dsimp only
  rw [assignVal,
    if_neg (by decide : ¬(pyStrip swidKey = s2Key)),
    if_pos (by decide : pyStrip swidKey = swidKey)]
  rw [pyStrip_eq_self (niceB_of_nospace hb)]

theorem s2part_nospace {a : List Char} (ha : ∀ c ∈ a, pyIsSpace c = false) :
    ∀ c ∈ s2Key ++ '=' :: a, pyIsSpace c = false := by
  intro c hc
  rcases List.mem_append.mp hc with hc | hc
  · exact (by decide : ∀ x ∈ s2Key, pyIsSpace x = false) c hc
  · rcases List.mem_cons.mp hc with rfl | hc
    · decide
    · exact ha c hc

theorem swidpart_nospace {b : List Char} (hb : ∀ c ∈ b, pyIsSpace c = false) :
    ∀ c ∈ swidKey ++ '=' :: b, pyIsSpace c = false := by
  intro c hc
  rcases List.mem_append.mp hc with hc | hc
  · exact (by decide : ∀ x ∈ swidKey, pyIsSpace x = false) c hc
  · rcases List.mem_cons.mp hc with rfl | hc
    · decide
    · exact hb c hc

theorem lin_render_fix {vs : CookieVals} (h : GoodValsL vs) :
    Lineups.normalize_cookie (renderVals vs) = renderVals vs := by
  obtain ⟨s2, swid⟩ := vs
  cases s2 with
  | none =>
    cases swid with
    | none =>
      rw [Lineups.normalize_cookie]
      rfl
    | some b =>
      have hb : GoodVL b := h.2 b rfl
      have hbg : GoodV b := goodVL_goodV hb
      have hrv : renderVals ⟨none, some b⟩ = swidKey ++ '=' :: b := rfl
      rw [Lineups.normalize_cookie, hrv,
        pyStrip_eq_self (niceB_render_swid hbg.1), decookie_swidhead,
        collapseWS_fix (niceB_render_swid hbg.1),
        map_repSemi_id (semi_not_mem_swidpart_bare hb.2),
        pySplitWS_word (swidpart_nospace hb.1) (by simp),
        List.foldl_cons, List.foldl_nil,
        lin_updateVals_part_swid _ hb.1]
      rfl
  | some a =>
    cases swid with
    | none =>
      have ha : GoodVL a := h.1 a rfl
      have hag : GoodV a := goodVL_goodV ha
      have hrv : renderVals ⟨some a, none⟩ = s2Key ++ '=' :: a := rfl
      rw [Lineups.normalize_cookie, hrv,
        pyStrip_eq_self (niceB_render_s2 hag.1), decookie_s2head,
        collapseWS_fix (niceB_render_s2 hag.1),
        map_repSemi_id (semi_not_mem_s2part ha.2),
        pySplitWS_word (s2part_nospace ha.1) (by simp),
        List.foldl_cons, List.foldl_nil,
        lin_updateVals_part_s2 _ ha.1]
      rfl
    | some b =>
      have ha : GoodVL a := h.1 a rfl
      have hb : GoodVL b := h.2 b rfl
      have hag : GoodV a := goodVL_goodV ha
      have hbg : GoodV b := goodVL_goodV hb
      have hnice := niceB_render_both hag.1 hbg.1
      have hrv : renderVals ⟨some a, some b⟩ =
          s2Key ++ '=' :: a ++ ';' :: ' ' :: (swidKey ++ '=' :: b) := rfl
      have hdec : decookie (s2Key ++ '=' :: a ++ ';' :: ' ' :: (swidKey ++ '=' :: b)) =
          s2Key ++ '=' :: a ++ ';' :: ' ' :: (swidKey ++ '=' :: b) := by
        have e2 : s2Key ++ '=' :: a ++ ';' :: ' ' :: (swidKey ++ '=' :: b) =
            s2Key ++ ('=' :: a ++ ';' :: ' ' :: (swidKey ++ '=' :: b)) := by simp
        rw [e2]
        exact decookie_s2head _
      have hmap : (s2Key ++ '=' :: a ++ ';' :: ' ' :: (swidKey ++ '=' :: b)).map
          Lineups.repSemi = s2Key ++ '=' :: a ++ ' ' :: ' ' :: (swidKey ++ '=' :: b) := by
        simp only [List.map_append, List.map_cons]
        rw [map_repSemi_id (by decide : ';' ∉ s2Key),
          map_repSemi_id (by decide : ';' ∉ swidKey),
          map_repSemi_id ha.2, map_repSemi_id hb.2,
          show Lineups.repSemi '=' = '=' from rfl,
          show Lineups.repSemi ';' = ' ' from rfl,
          show Lineups.repSemi ' ' = ' ' from rfl]
      have hsplitws : pySplitWS (s2Key ++ '=' :: a ++ ' ' :: ' ' :: (swidKey ++ '=' :: b)) =
          [s2Key ++ '=' :: a, swidKey ++ '=' :: b] := by
        have e : s2Key ++ '=' :: a ++ ' ' :: ' ' :: (swidKey ++ '=' :: b) =
            (s2Key ++ '=' :: a) ++ ' ' :: (' ' :: (swidKey ++ '=' :: b)) := by simp
        rw [e, pySplitWS_word_append _ (s2part_nospace ha.1) (by simp),
          pySplitWS_cons_space (by decide),
          pySplitWS_word (swidpart_nospace hb.1) (by simp)]
      rw [Lineups.normalize_cookie, hrv,
        pyStrip_eq_self hnice, hdec, collapseWS_fix hnice, hmap, hsplitws,
        List.foldl_cons, List.foldl_cons, List.foldl_nil,
        lin_updateVals_part_s2 _ ha.1,
        lin_updateVals_part_swid _ hb.1]
      rfl

/-- C10: both credential normalizers are idempotent — re-normalizing an
already-normalized credential string returns it unchanged, for the
`pull_espn_transactions.py` variant and the `pull_espn_lineups.py`
variant alike, on every input string. -/
theorem c10_normalize_cookie_idempotent :
    (∀ s : List Char, Transactions.normalize_cookie (Transactions.normalize_cookie s) =
        Transactions.normalize_cookie s) ∧
      (∀ s : List Char, Lineups.normalize_cookie (Lineups.normalize_cookie s) =
        Lineups.normalize_cookie s) := by
  constructor
  · intro s
    have h1 : Transactions.normalize_cookie s =
        renderVals ((pySplitOn ';' (collapseWS (decookie (pyStrip s)))).foldl
          Transactions.updateVals ⟨none, none⟩) := rfl
    rw [h1]
    exact tx_render_fix (tx_extract_good _)
  · intro s
    have h1 : Lineups.normalize_cookie s =
        renderVals ((pySplitWS ((collapseWS (decookie (pyStrip s))).map Lineups.repSemi)).foldl
          Lineups.updateVals ⟨none, none⟩) := rfl
    rw [h1]
    exact lin_render_fix (lin_extract_good _)
